import Mathlib

/-!
Verification of the flow & pagination engine of the ExportPDF repository.

Texts are modelled as lists of characters, coordinates and widths as exact
rationals.  Font metrics (jsPDF's per-character width tables) are an abstract
parameter `cw : CharWidths`.  Mutable renderer state is passed explicitly.
-/

namespace ExportPDF

/-- A run of text: the character list of a JS string. -/
abbrev Text := List Char

/-- JS whitespace (the `\s` character class), as used by `trim`,
`replace(/\s+/g, ' ')` and `trimStart`/`trimEnd` in the source.
The Unicode line separator ` ` is JS whitespace. -/
def isJsWs (c : Char) : Bool :=
  c = (' ') ∨ c = ('\t') ∨ c = ('\n') ∨ c = ('\r') ∨
  c = (Char.ofNat 11) ∨ c = (Char.ofNat 12) ∨ c = (Char.ofNat 0xa0) ∨
  c = (Char.ofNat 0x2028) ∨ c = (Char.ofNat 0x2029) ∨ c = (Char.ofNat 0xfeff)

/-- The Unicode line separator fragment `' '` pushed by BR handling
(`fromHTML.ts`) and treated as a forced line break by the line breaker. -/
def lineSep : Text := [Char.ofNat 0x2028]

/-- A resolved style record (`ParsedCSS` in `src/src/types.ts`), restricted to
the fields the flow engine reads.  Sizes are multipliers of the default font
size, margins/paddings are in font units, as in the source. -/
structure Style where
  fontFamily : String := ("times")
  fontStyle : String := ("normal")
  fontSize : ℚ := 1
  lineHeight : ℚ := 1
  textAlign : String := ("left")
  marginTop : ℚ := 0
  marginBottom : ℚ := 0
  marginLeft : ℚ := 0
  paddingTop : ℚ := 0
  paddingBottom : ℚ := 0
  wordSpacing : ℚ := 0
  pageBreakBefore : String := ("auto")
  clear : String := ("none")
  deriving Repr, DecidableEq, Inhabited

/-- Abstract font metrics: unit width of one character in a given
font family / font style (jsPDF `font.metadata.Unicode.widths`). -/
abbrev CharWidths := String → String → Char → ℚ

/-- `pdf.getStringUnitWidth`: the metric width of a string, additive over the
characters (kerning is abstracted away into the per-character widths). -/
def stringUnitWidth (cw : CharWidths) (ff fs : String) (t : Text) : ℚ :=
  (t.map (cw ff fs)).sum

/-- The absolute width of one fragment under a style, as computed at
`TextRenderer.ts:65-68`: `getStringUnitWidth(fragment, metrics) * fontSize / k`
with `fontSize = style['font-size'] * 12` and `k` the pdf scale factor. -/
def fragWidth (cw : CharWidths) (k : ℚ) (st : Style) (t : Text) : ℚ :=
  stringUnitWidth cw st.fontFamily st.fontStyle t * (st.fontSize * 12) / k

theorem stringUnitWidth_append (cw : CharWidths) (ff fs : String) (a b : Text) :
    stringUnitWidth cw ff fs (a ++ b) =
      stringUnitWidth cw ff fs a + stringUnitWidth cw ff fs b := by
  simp [stringUnitWidth]

theorem fragWidth_append (cw : CharWidths) (k : ℚ) (st : Style) (a b : Text) :
    fragWidth cw k st (a ++ b) = fragWidth cw k st a + fragWidth cw k st b := by
  simp [fragWidth, stringUnitWidth_append, div_add_div_same, add_mul]

theorem fragWidth_nil (cw : CharWidths) (k : ℚ) (st : Style) :
    fragWidth cw k st [] = 0 := by
  simp [fragWidth, stringUnitWidth]

theorem fragWidth_nonneg (cw : CharWidths) (k : ℚ) (st : Style) (t : Text)
    (hcw : ∀ ff fs c, 0 ≤ cw ff fs c) (hfs : 0 ≤ st.fontSize) (hk : 0 ≤ k) :
    0 ≤ fragWidth cw k st t := by
  have h1 : 0 ≤ stringUnitWidth cw st.fontFamily st.fontStyle t := by
    refine List.sum_nonneg ?_
    intro x hx
    obtain ⟨c, _, rfl⟩ := List.mem_map.mp hx
    exact hcw _ _ c
  have h2 : 0 ≤ st.fontSize * 12 := by positivity
  exact div_nonneg (mul_nonneg h1 h2) hk

theorem fragWidth_pos (cw : CharWidths) (k : ℚ) (st : Style) (t : Text)
    (hcw : ∀ ff fs c, 0 < cw ff fs c) (hfs : 0 < st.fontSize) (hk : 0 < k)
    (ht : t ≠ []) : 0 < fragWidth cw k st t := by
  have h1 : 0 < stringUnitWidth cw st.fontFamily st.fontStyle t := by
    cases t with
    | nil => exact absurd rfl ht
    | cons c cs =>
        have hhead : 0 < cw st.fontFamily st.fontStyle c := hcw _ _ c
        have htail : 0 ≤ (cs.map (cw st.fontFamily st.fontStyle)).sum := by
          refine List.sum_nonneg ?_
          intro x hx
          obtain ⟨d, _, rfl⟩ := List.mem_map.mp hx
          exact le_of_lt (hcw _ _ d)
        simp only [stringUnitWidth, List.map_cons, List.sum_cons]
        linarith
  have h2 : 0 < st.fontSize * 12 := by positivity
  exact div_pos (mul_pos h1 h2) hk

/-! ### The word splitter modelled from the spec

jsPDF's `splitTextToSize` is an external library function (not under `src/`);
it is modelled here from the spec's words (§4.1): a fragment is split at
whitespace break boundaries, greedily measured against the max width, the
first line's budget being reduced by the `textIndent` option; an unsplittable
word longer than a full line is emitted verbatim alone. -/

/-- Split a text at single spaces, keeping empty words (JS `split(' ')`). -/
def splitWords : Text → List Text
  | [] => [[]]
  | c :: cs =>
      if c = (' ') then [] :: splitWords cs
      else
        match splitWords cs with
        | [] => [[c]]
        | w :: ws => (c :: w) :: ws

/-- Join words with single spaces (inverse of `splitWords`). -/
def joinSp : List Text → Text
  | [] => []
  | [w] => w
  | w :: ws => w ++ (' ') :: joinSp ws

theorem splitWords_ne_nil (t : Text) : splitWords t ≠ [] := by
  cases t with
  | nil => simp [splitWords]
  | cons c cs =>
      by_cases h : c = (' ') <;> simp [splitWords, h]
      cases hs : splitWords cs <;> simp

theorem joinSp_cons_cons (w x : Text) (ws : List Text) :
    joinSp (w :: x :: ws) = w ++ (' ') :: joinSp (x :: ws) := by
  rfl

theorem joinSp_splitWords (t : Text) : joinSp (splitWords t) = t := by
  induction t with
  | nil => rfl
  | cons c cs ih =>
      by_cases h : c = (' ')
      · subst h
        have h1 : splitWords ((' ') :: cs) = [] :: splitWords cs := by
          simp [splitWords]
        rw [h1]
        cases hs : splitWords cs with
        | nil => exact absurd hs (splitWords_ne_nil cs)
        | cons w ws =>
            rw [joinSp_cons_cons]
            rw [hs] at ih
            simpa using ih
      · have h1 : splitWords (c :: cs) =
            match splitWords cs with
            | [] => [[c]]
            | w :: ws => (c :: w) :: ws := by
          simp [splitWords, h]
        rw [h1]
        cases hs : splitWords cs with
        | nil => exact absurd hs (splitWords_ne_nil cs)
        | cons w ws =>
            rw [hs] at ih
            cases ws with
            | nil => simpa [joinSp] using ih
            | cons x xs =>
                rw [joinSp_cons_cons] at ih ⊢
                simpa using ih

/-- Modelled from the spec: the greedy line filler inside jsPDF's
`splitTextToSize` (external library, not under `src/`).  `w` measures a
candidate line, `maxLen` is the full line budget, `indent` the `textIndent`
option reducing the first line's budget.  `acc` is the line being filled
(`none` = no word placed yet), `isFirst` marks the indented first line.
The fuel argument is a termination counter; `splitTextToSize` supplies
enough fuel for the greedy loop to run to completion. -/
def splitGo (w : Text → ℚ) (maxLen indent : ℚ) :
    ℕ → List Text → Option Text → Bool → List Text
  | 0, _, acc, _ => [acc.getD []]
  | _ + 1, [], acc, _ => [acc.getD []]
  | fuel + 1, word :: ws, none, isFirst =>
      let budget := if isFirst then maxLen - indent else maxLen
      if w word ≤ budget then splitGo w maxLen indent fuel ws (some word) isFirst
      else if isFirst ∧ 0 < indent then
        -- nothing fits on the indented first line: close it empty
        [] :: splitGo w maxLen indent fuel (word :: ws) none false
      else
        -- an unsplittable word longer than a full line: emitted verbatim alone
        word :: splitGo w maxLen indent fuel ws none false
  | fuel + 1, word :: ws, some acc, isFirst =>
      let cand := acc ++ (' ') :: word
      let budget := if isFirst then maxLen - indent else maxLen
      if w cand ≤ budget then splitGo w maxLen indent fuel ws (some cand) isFirst
      else acc :: splitGo w maxLen indent fuel (word :: ws) none false

/-- Fuel that always suffices for `splitGo` (each step strictly decreases
`2*length + accFlag + firstFlag`). -/
def splitFuel (ws : List Text) : ℕ := 2 * ws.length + 2

/-- Modelled from the spec: jsPDF's `splitTextToSize(text, maxLen, metrics)`
with `metrics.textIndent = indent`, splitting at whitespace break boundaries
by measured width (§4.1 of the spec). -/
def splitTextToSize (w : Text → ℚ) (maxLen indent : ℚ) (text : Text) :
    List Text :=
  splitGo w maxLen indent (splitFuel (splitWords text)) (splitWords text) none true

/-- The measure that `splitGo`'s fuel must dominate. -/
def splitMeasure (ws : List Text) (acc : Option Text) (isFirst : Bool) : ℕ :=
  2 * ws.length + (if acc.isSome then 1 else 0) + (if isFirst then 1 else 0)

theorem splitGo_ne_nil (w : Text → ℚ) (maxLen indent : ℚ)
    (fuel : ℕ) (ws : List Text) (acc : Option Text) (isFirst : Bool) :
    splitGo w maxLen indent fuel ws acc isFirst ≠ [] := by
  induction fuel generalizing ws acc isFirst with
  | zero => simp [splitGo]
  | succ f ih =>
      cases ws with
      | nil => cases acc <;> simp [splitGo]
      | cons word ws =>
          cases acc with
          | none =>
              simp only [splitGo]
              by_cases h1 : w word ≤ (if isFirst then maxLen - indent else maxLen)
              · rw [if_pos h1]
                exact ih ws (some word) isFirst
              · rw [if_neg h1]
                by_cases h2 : isFirst = true ∧ 0 < indent
                · rw [if_pos h2]; simp
                · rw [if_neg h2]; simp
          | some a =>
              simp only [splitGo]
              by_cases h1 : w (a ++ (' ') :: word) ≤
                  (if isFirst then maxLen - indent else maxLen)
              · rw [if_pos h1]
                exact ih ws (some (a ++ (' ') :: word)) isFirst
              · rw [if_neg h1]; simp

theorem joinSp_append_cons (a x : Text) (l : List Text) :
    joinSp ((a ++ (' ') :: x) :: l) = a ++ (' ') :: joinSp (x :: l) := by
  cases l with
  | nil => rfl
  | cons y ys => rw [joinSp_cons_cons, joinSp_cons_cons]; simp

/-- If the greedy filler returns a single piece, then that piece is all the
words joined back with single spaces, and it fits the (first-line) budget. -/
theorem splitGo_singleton (w : Text → ℚ) (maxLen indent : ℚ)
    (fuel : ℕ) (ws : List Text) (acc : Option Text) (isFirst : Bool) (p : Text)
    (hfuel : splitMeasure ws acc isFirst < fuel)
    (hne : acc = none → ws ≠ [])
    (hacc : ∀ a, acc = some a →
      w a ≤ (if isFirst then maxLen - indent else maxLen))
    (h : splitGo w maxLen indent fuel ws acc isFirst = [p]) :
    p = joinSp (acc.elim ws (· :: ws)) ∧
      w p ≤ (if isFirst then maxLen - indent else maxLen) := by
  induction fuel generalizing ws acc isFirst with
  | zero => exact absurd hfuel (by omega)
  | succ f ih =>
      cases ws with
      | nil =>
          cases acc with
          | none => exact absurd rfl (hne rfl)
          | some a =>
              simp only [splitGo, Option.getD] at h
              rw [List.cons_eq_cons] at h
              obtain ⟨rfl, -⟩ := h
              exact ⟨rfl, hacc _ rfl⟩
      | cons word ws =>
          cases acc with
          | none =>
              simp only [splitGo] at h
              by_cases hfit : w word ≤ (if isFirst then maxLen - indent else maxLen)
              · rw [if_pos hfit] at h
                have hm : splitMeasure ws (some word) isFirst < f := by
                  simp [splitMeasure] at hfuel ⊢
                  omega
                have := ih ws (some word) isFirst hm
                  (by intro hc; cases hc)
                  (by intro a ha; rw [Option.some_inj] at ha; rw [← ha]; exact hfit) h
                simpa using this
              · rw [if_neg hfit] at h
                by_cases hind : isFirst = true ∧ 0 < indent
                · rw [if_pos hind] at h
                  exact absurd (List.cons_eq_cons.mp h).2
                    (splitGo_ne_nil w maxLen indent f (word :: ws) none false)
                · rw [if_neg hind] at h
                  exact absurd (List.cons_eq_cons.mp h).2
                    (splitGo_ne_nil w maxLen indent f ws none false)
          | some a =>
              simp only [splitGo] at h
              by_cases hfit : w (a ++ (' ') :: word) ≤
                  (if isFirst then maxLen - indent else maxLen)
              · rw [if_pos hfit] at h
                have hm : splitMeasure ws (some (a ++ (' ') :: word)) isFirst < f := by
                  simp [splitMeasure] at hfuel ⊢
                  omega
                have hrec := ih ws (some (a ++ (' ') :: word)) isFirst hm
                  (by intro hc; cases hc)
                  (by intro b hb; rw [Option.some_inj] at hb; rw [← hb]; exact hfit) h
                refine ⟨?_, hrec.2⟩
                rw [hrec.1]
                simp only [Option.elim]
                rw [joinSp_append_cons, joinSp_cons_cons]
              · rw [if_neg hfit] at h
                exact absurd (List.cons_eq_cons.mp h).2
                  (splitGo_ne_nil w maxLen indent f (word :: ws) none false)

/-- The first piece of the greedy filler either fits the (possibly
indent-reduced) budget, or is empty, or is an unsplittable word wider than a
full line (in which case the first line was not indent-reduced). -/
theorem splitGo_head (w : Text → ℚ) (maxLen indent : ℚ)
    (fuel : ℕ) (ws : List Text) (acc : Option Text) (isFirst : Bool)
    (hfuel : splitMeasure ws acc isFirst < fuel)
    (hacc : ∀ a, acc = some a →
      w a ≤ (if isFirst then maxLen - indent else maxLen)) :
    ∃ p rest, splitGo w maxLen indent fuel ws acc isFirst = p :: rest ∧
      (w p ≤ (if isFirst then maxLen - indent else maxLen) ∨ p = [] ∨
        (maxLen < w p ∧ (isFirst = true → indent ≤ 0))) := by
  induction fuel generalizing ws acc isFirst with
  | zero => exact absurd hfuel (by omega)
  | succ f ih =>
      cases ws with
      | nil =>
          cases acc with
          | none => exact ⟨[], [], rfl, Or.inr (Or.inl rfl)⟩
          | some a => exact ⟨a, [], rfl, Or.inl (hacc _ rfl)⟩
      | cons word ws =>
          cases acc with
          | none =>
              by_cases hfit : w word ≤ (if isFirst then maxLen - indent else maxLen)
              · have hm : splitMeasure ws (some word) isFirst < f := by
                  simp [splitMeasure] at hfuel ⊢
                  omega
                obtain ⟨p, rest, heq, hp⟩ := ih ws (some word) isFirst hm
                  (by intro a ha; rw [Option.some_inj] at ha; rw [← ha]; exact hfit)
                refine ⟨p, rest, ?_, hp⟩
                simp only [splitGo]
                rw [if_pos hfit]
                exact heq
              · by_cases hind : isFirst = true ∧ 0 < indent
                · refine ⟨[], splitGo w maxLen indent f (word :: ws) none false,
                    ?_, Or.inr (Or.inl rfl)⟩
                  simp only [splitGo]
                  rw [if_neg hfit, if_pos hind]
                · refine ⟨word, splitGo w maxLen indent f ws none false, ?_, ?_⟩
                  · simp only [splitGo]
                    rw [if_neg hfit, if_neg hind]
                  · refine Or.inr (Or.inr ⟨?_, ?_⟩)
                    · cases isFirst with
                      | false =>
                          simp only [Bool.false_eq_true, if_false] at hfit
                          exact lt_of_not_le hfit
                      | true =>
                          have hi : indent ≤ 0 := by
                            by_contra hpos
                            exact hind ⟨rfl, lt_of_not_le hpos⟩
                          rw [if_pos rfl] at hfit
                          have := lt_of_not_le hfit
                          linarith
                    · intro hT
                      by_contra hpos
                      exact hind ⟨hT, lt_of_not_le hpos⟩
          | some a =>
              by_cases hfit : w (a ++ (' ') :: word) ≤
                  (if isFirst then maxLen - indent else maxLen)
              · have hm : splitMeasure ws (some (a ++ (' ') :: word)) isFirst < f := by
                  simp [splitMeasure] at hfuel ⊢
                  omega
                obtain ⟨p, rest, heq, hp⟩ := ih ws (some (a ++ (' ') :: word)) isFirst hm
                  (by intro b hb; rw [Option.some_inj] at hb; rw [← hb]; exact hfit)
                refine ⟨p, rest, ?_, hp⟩
                simp only [splitGo]
                rw [if_pos hfit]
                exact heq
              · refine ⟨a, splitGo w maxLen indent f (word :: ws) none false,
                  ?_, Or.inl (hacc _ rfl)⟩
                simp only [splitGo]
                rw [if_neg hfit]

/-! ### The line breaker (`splitFragmentsIntoLines`, `TextRenderer.ts:22-157`) -/

/-- One produced line: ordered (fragment, style) pairs. -/
abbrev Line := List (Text × Style)

/-- The measured width of a line: the sum of its fragments' metric widths. -/
def lineWidth (cw : CharWidths) (k : ℚ) (line : Line) : ℚ :=
  (line.map (fun f => fragWidth cw k f.2 f.1)).sum

/-- The main loop of `splitFragmentsIntoLines` (`TextRenderer.ts:43-102`),
transcribed with the mutable arrays as explicit arguments: `closed` holds the
lines already left behind, `cur` the line currently being filled (the JS
`lines` array is `closed ++ [cur]`), `cll` is `currentLineLength`, and
`lastStyle` the last value assigned to the `style` variable (used by the
alignment pass).  The JS `style!` on an exhausted styles array would crash;
here it yields the default style (theorems assume equally long arrays).
Returns the produced lines, the last style, and the final (emptied) state of
the two caller-supplied arrays. -/
def splitLoop (cw : CharWidths) (k maxLen : ℚ) :
    List Text → List Style → List Line → Line → ℚ → Option Style →
      List Line × Option Style × List Text × List Style
  | [], styles, closed, cur, _cll, lastStyle =>
      (closed ++ [cur], lastStyle, [], styles)
  | frag :: frags, styles, closed, cur, cll, _lastStyle =>
      let style := styles.head?.getD default
      if frag = [] then
        -- `if (fragment)` is false: the fragment is skipped
        splitLoop cw k maxLen frags styles.tail closed cur cll styles.head?
      else
        let fragmentLength := fragWidth cw k style frag
        if frag = lineSep then
          -- forced line break
          splitLoop cw k maxLen frags styles.tail (closed ++ [cur]) [] 0 styles.head?
        else if maxLen < cll + fragmentLength then
          -- need to split the fragment
          match splitTextToSize (fragWidth cw k style) maxLen cll frag with
          | [] =>
              -- `fragmentChopped.shift()!` would be undefined; never happens
              splitLoop cw k maxLen frags styles.tail closed cur cll styles.head?
          | p1 :: rest =>
              let cur1 := cur ++ [(p1, style)]
              match rest with
              | [] =>
                  -- the whole chop landed on the current line:
                  -- `currentLineLength` is recomputed from `line[0][0]`
                  let cll' := fragWidth cw k style ((cur1.headD ([], style)).1)
                  splitLoop cw k maxLen frags styles.tail closed cur1 cll' styles.head?
              | r :: rs =>
                  -- every further piece opens a new line; the last one stays
                  let lst := (r :: rs).getLastD []
                  let mids := ((r :: rs).dropLast).map (fun p => ([(p, style)] : Line))
                  splitLoop cw k maxLen frags styles.tail
                    (closed ++ [cur1] ++ mids) [(lst, style)]
                    (fragWidth cw k style lst) styles.head?
        else
          -- fragment fits on the current line
          splitLoop cw k maxLen frags styles.tail closed
            (cur ++ [(frag, style)]) (cll + fragmentLength) styles.head?

/-- `splitFragmentsIntoLines` before the alignment pass, also exposing the
final state of the caller's two arrays (they are consumed via `shift`). -/
def splitFragmentsIntoLinesCore (cw : CharWidths) (k : ℚ)
    (fragments : List Text) (styles : List Style) (maxLen : ℚ) :
    List Line × Option Style × List Text × List Style :=
  splitLoop cw k maxLen fragments styles [] [] 0 none

/-- The concatenated text of a line (`TextRenderer.ts:125-128`). -/
def lineText (line : Line) : Text :=
  (line.map Prod.fst).flatten

/-- `lineText.split(' ').length - 1`: the number of inter-word gaps. -/
def countSpaces (t : Text) : ℕ :=
  t.count (' ')

/-- The measured width of a line as the alignment pass computes it
(`TextRenderer.ts:113-132`): the concatenated text measured with the FIRST
fragment's font metrics and font size. -/
def measuredLineWidth (cw : CharWidths) (k : ℚ) (line : Line) : ℚ :=
  match line.head? with
  | none => 0
  | some (_, st0) =>
      stringUnitWidth cw st0.fontFamily st0.fontStyle (lineText line) *
        (st0.fontSize * 12) / k

/-- Alignment of one line (`TextRenderer.ts:108-152`).  `isLast` tells whether
this is the paragraph's final line (which gets zero extra word spacing under
justify).  Style objects are modelled as values, so the JS cloning of shared
style objects needs no counterpart. -/
def alignLine (cw : CharWidths) (k maxLen : ℚ) (align : String) (isLast : Bool)
    (line : Line) : Line :=
  match line with
  | [] => line
  | (t0, st0) :: tail =>
      let space := maxLen - measuredLineWidth cw k line
      if align = ("right") then
        (t0, { st0 with marginLeft := space }) :: tail
      else if align = ("center") then
        (t0, { st0 with marginLeft := space / 2 }) :: tail
      else if align = ("justify") then
        let g := countSpaces (lineText line)
        let ws0 : ℚ := if 0 < g then space / (g : ℚ) else 0
        let ws : ℚ := if isLast then 0 else ws0
        (t0, { st0 with wordSpacing := ws }) :: tail
      else line

/-- The alignment pass over all lines, threading the line index. -/
def alignAll (cw : CharWidths) (k maxLen : ℚ) (align : String) (total : ℕ) :
    ℕ → List Line → List Line
  | _, [] => []
  | i, line :: rest =>
      alignLine cw k maxLen align (i = total - 1) line ::
        alignAll cw k maxLen align total (i + 1) rest

/-- The alignment pass (`TextRenderer.ts:104-154`): applied only when the last
shifted style requests center/right/justify alignment. -/
def applyAlignment (cw : CharWidths) (k maxLen : ℚ) (lastStyle : Option Style)
    (lines : List Line) : List Line :=
  match lastStyle with
  | none => lines
  | some st =>
      if st.textAlign = ("center") ∨ st.textAlign = ("right") ∨
          st.textAlign = ("justify") then
        alignAll cw k maxLen st.textAlign lines.length 0 lines
      else lines

/-- `splitFragmentsIntoLines` (`TextRenderer.ts:22-157`): the greedy line
builder followed by the alignment pass. -/
def splitFragmentsIntoLines (cw : CharWidths) (k : ℚ)
    (fragments : List Text) (styles : List Style) (maxLen : ℚ) : List Line :=
  let res := splitFragmentsIntoLinesCore cw k fragments styles maxLen
  applyAlignment cw k maxLen res.2.1 res.1

/-! ### C1: no produced line is wider than the max width -/

/-- The C1 exception: the line's only non-empty fragment is a single
unsplittable fragment wider than the max width, emitted verbatim alone
(possibly next to empty filler fragments, which have no width). -/
def oversizedAlone (cw : CharWidths) (k maxLen : ℚ) (line : Line) : Prop :=
  ∃ t st, line.filter (fun f => !f.1.isEmpty) = [(t, st)] ∧
    maxLen < fragWidth cw k st t

/-- The per-line C1 property. -/
def lineOk (cw : CharWidths) (k maxLen : ℚ) (line : Line) : Prop :=
  lineWidth cw k line ≤ maxLen ∨ oversizedAlone cw k maxLen line

theorem lineWidth_nil (cw : CharWidths) (k : ℚ) : lineWidth cw k [] = 0 := rfl

theorem lineWidth_append (cw : CharWidths) (k : ℚ) (a b : Line) :
    lineWidth cw k (a ++ b) = lineWidth cw k a + lineWidth cw k b := by
  simp [lineWidth]

theorem lineWidth_singleton (cw : CharWidths) (k : ℚ) (t : Text) (st : Style) :
    lineWidth cw k [(t, st)] = fragWidth cw k st t := by
  simp [lineWidth]

theorem splitTextToSize_ne_nil (w : Text → ℚ) (maxLen indent : ℚ) (t : Text) :
    splitTextToSize w maxLen indent t ≠ [] :=
  splitGo_ne_nil w maxLen indent _ _ none true

/-- A single-piece result of the modelled `splitTextToSize` is the whole
fragment, and it fits within `maxLen - indent`. -/
theorem splitTextToSize_singleton (w : Text → ℚ) (maxLen indent : ℚ)
    (t p : Text) (h : splitTextToSize w maxLen indent t = [p]) :
    p = t ∧ w p ≤ maxLen - indent := by
  have hfuel : splitMeasure (splitWords t) none true < splitFuel (splitWords t) := by
    simp [splitMeasure, splitFuel]
  have hs := splitGo_singleton w maxLen indent (splitFuel (splitWords t))
    (splitWords t) none true p hfuel
    (fun _ => splitWords_ne_nil t) (by intro a ha; cases ha) h
  rcases hs with ⟨hp, hw⟩
  simp only [Option.elim] at hp
  rw [joinSp_splitWords] at hp
  exact ⟨hp, by simpa using hw⟩

/-- The first piece of the modelled `splitTextToSize` either fits the
indent-reduced budget, or is empty, or is an unsplittable word wider than the
full line (possible only when the indent was not positive). -/
theorem splitTextToSize_head (w : Text → ℚ) (maxLen indent : ℚ)
    (t p : Text) (rest : List Text)
    (h : splitTextToSize w maxLen indent t = p :: rest) :
    w p ≤ maxLen - indent ∨ p = [] ∨ (maxLen < w p ∧ indent ≤ 0) := by
  have hfuel : splitMeasure (splitWords t) none true < splitFuel (splitWords t) := by
    simp [splitMeasure, splitFuel]
  obtain ⟨p', rest', heq, hp⟩ := splitGo_head w maxLen indent
    (splitFuel (splitWords t)) (splitWords t) none true hfuel
    (by intro a ha; cases ha)
  rw [splitTextToSize, heq] at h
  obtain ⟨rfl, -⟩ := List.cons_eq_cons.mp h.symm
  rcases hp with h1 | h2 | h3
  · exact Or.inl (by simpa using h1)
  · exact Or.inr (Or.inl h2)
  · exact Or.inr (Or.inr ⟨h3.1, h3.2 rfl⟩)

theorem filter_eq_nil_of_all_empty (line : Line)
    (h : ∀ f ∈ line, f.1 = ([] : Text)) :
    line.filter (fun f => !f.1.isEmpty) = [] := by
  induction line with
  | nil => rfl
  | cons f fs ih =>
      have h1 : f.1 = [] := h f (List.mem_cons_self f fs)
      have h2 : ∀ g ∈ fs, g.1 = ([] : Text) := fun g hg => h g (List.mem_cons_of_mem f hg)
      simp [List.filter_cons, h1, ih h2]

/-- Any singleton line satisfies the C1 property. -/
theorem lineOk_singleton (cw : CharWidths) (k maxLen : ℚ) (hmax : 0 ≤ maxLen)
    (t : Text) (st : Style) : lineOk cw k maxLen [(t, st)] := by
  by_cases hw : fragWidth cw k st t ≤ maxLen
  · exact Or.inl (by rw [lineWidth_singleton]; exact hw)
  · refine Or.inr ⟨t, st, ?_, lt_of_not_le hw⟩
    have ht : t ≠ [] := by
      intro hnil
      rw [hnil, fragWidth_nil] at hw
      exact hw hmax
    simp [List.filter_cons, ht]

/-- The key invariant of the `splitLoop` recursion: with positive metrics,
every produced line is at most `maxLen` wide or consists of one oversized
fragment alone. -/
theorem splitLoop_ok (cw : CharWidths) (k maxLen : ℚ)
    (hk : 0 < k) (hmax : 0 ≤ maxLen) (hcw : ∀ ff fs c, 0 < cw ff fs c) :
    ∀ (fragments : List Text) (styles : List Style) (closed : List Line)
      (cur : Line) (cll : ℚ) (lastStyle : Option Style),
      styles.length = fragments.length →
      (∀ st ∈ styles, 0 < st.fontSize) →
      (∀ l ∈ closed, lineOk cw k maxLen l) →
      cll = lineWidth cw k cur →
      lineOk cw k maxLen cur →
      (∀ f ∈ cur, f.1 ≠ [] → 0 < fragWidth cw k f.2 f.1) →
      ∀ l ∈ (splitLoop cw k maxLen fragments styles closed cur cll lastStyle).1,
        lineOk cw k maxLen l := by
  intro fragments
  induction fragments with
  | nil =>
      intro styles closed cur cll lastStyle _ _ hclosed _ hcur _ l hl
      simp only [splitLoop] at hl
      rcases List.mem_append.mp hl with h | h
      · exact hclosed l h
      · rw [List.mem_singleton.mp h]; exact hcur
  | cons frag frags ih =>
      intro styles closed cur cll lastStyle hlen hsty hclosed hcll hcur hpos l hl
      cases styles with
      | nil => exact absurd hlen (by simp)
      | cons s ss =>
          have hslen : ss.length = frags.length := by simpa using hlen
          have hs : 0 < s.fontSize := hsty s (List.mem_cons_self s ss)
          have hss : ∀ st ∈ ss, 0 < st.fontSize :=
            fun st hst => hsty st (List.mem_cons_of_mem s hst)
          simp only [splitLoop, List.head?_cons, Option.getD_some, List.tail_cons] at hl
          by_cases hle : frag = ([] : Text)
          · rw [if_pos hle] at hl
            exact ih ss closed cur cll _ hslen hss hclosed hcll hcur hpos l hl
          · rw [if_neg hle] at hl
            by_cases hsep : frag = lineSep
            · rw [if_pos hsep] at hl
              refine ih ss (closed ++ [cur]) [] 0 _ hslen hss ?_ (by rfl) ?_ ?_ l hl
              · intro l' hl'
                rcases List.mem_append.mp hl' with h | h
                · exact hclosed l' h
                · rw [List.mem_singleton.mp h]; exact hcur
              · exact Or.inl (by rw [lineWidth_nil]; exact hmax)
              · intro f hf; cases hf
            · rw [if_neg hsep] at hl
              by_cases hov : maxLen < cll + fragWidth cw k s frag
              · rw [if_pos hov] at hl
                rcases hpieces : splitTextToSize (fragWidth cw k s) maxLen cll frag with
                  _ | ⟨p1, rest⟩
                · rw [hpieces] at hl
                  exact ih ss closed cur cll _ hslen hss hclosed hcll hcur hpos l hl
                · rw [hpieces] at hl
                  rcases rest with _ | ⟨r, rs⟩
                  · -- a single piece under overflow is impossible
                    obtain ⟨hp1, hw1⟩ :=
                      splitTextToSize_singleton (fragWidth cw k s) maxLen cll frag p1 hpieces
                    rw [hp1] at hw1
                    exact absurd hov (by linarith)
                  · -- first piece onto the current line, the rest open new lines
                    have hhead := splitTextToSize_head (fragWidth cw k s) maxLen cll
                      frag p1 (r :: rs) hpieces
                    have hcur1 : lineOk cw k maxLen (cur ++ [(p1, s)]) := by
                      rcases hhead with h1 | h2 | h3
                      · refine Or.inl ?_
                        rw [lineWidth_append, lineWidth_singleton, ← hcll]
                        linarith
                      · subst h2
                        rcases hcur with hc | ⟨t, st, hft, hwt⟩
                        · refine Or.inl ?_
                          rw [lineWidth_append, lineWidth_singleton, fragWidth_nil]
                          rw [← hcll] at hc ⊢
                          linarith
                        · refine Or.inr ⟨t, st, ?_, hwt⟩
                          rw [List.filter_append, hft]
                          simp
                      · -- the head is an oversized word; the current line is all-empty
                        have hcll0 : lineWidth cw k cur ≤ 0 := by
                          rw [← hcll]; exact h3.2
                        have hallz : ∀ f ∈ cur, f.1 = ([] : Text) := by
                          intro f hf
                          by_contra hne
                          have hfpos : 0 < fragWidth cw k f.2 f.1 := hpos f hf hne
                          have hnonneg : ∀ x ∈ cur.map
                              (fun f => fragWidth cw k f.2 f.1), 0 ≤ x := by
                            intro x hx
                            obtain ⟨g, hg, rfl⟩ := List.mem_map.mp hx
                            by_cases hg1 : g.1 = ([] : Text)
                            · rw [hg1, fragWidth_nil]
                            · exact le_of_lt (hpos g hg hg1)
                          have hmem : fragWidth cw k f.2 f.1 ∈ cur.map
                              (fun f => fragWidth cw k f.2 f.1) :=
                            List.mem_map.mpr ⟨f, hf, rfl⟩
                          have hsum := List.single_le_sum hnonneg _ hmem
                          have hlw : lineWidth cw k cur =
                              (cur.map (fun f => fragWidth cw k f.2 f.1)).sum := rfl
                          rw [← hlw] at hsum
                          linarith
                        refine Or.inr ⟨p1, s, ?_, h3.1⟩
                        rw [List.filter_append, filter_eq_nil_of_all_empty cur hallz]
                        have hp1ne : p1 ≠ [] := by
                          intro hnil
                          rw [hnil, fragWidth_nil] at h3
                          exact absurd h3.1 (not_lt.mpr hmax)
                        simp [List.filter_cons, hp1ne]
                    have hmids : ∀ l' ∈ ((r :: rs).dropLast).map
                        (fun p => ([(p, s)] : Line)), lineOk cw k maxLen l' := by
                      intro l' hl'
                      obtain ⟨p, _, rfl⟩ := List.mem_map.mp hl'
                      exact lineOk_singleton cw k maxLen hmax p s
                    refine ih ss (closed ++ [cur ++ [(p1, s)]] ++
                        ((r :: rs).dropLast).map (fun p => ([(p, s)] : Line)))
                      [((r :: rs).getLastD [], s)] _ _ hslen hss ?_
                      (by rw [lineWidth_singleton]) ?_ ?_ l hl
                    · intro l' hl'
                      rcases List.mem_append.mp hl' with h' | h'
                      · rcases List.mem_append.mp h' with h'' | h''
                        · exact hclosed l' h''
                        · rw [List.mem_singleton.mp h'']; exact hcur1
                      · exact hmids l' h'
                    · exact lineOk_singleton cw k maxLen hmax _ s
                    · intro f hf
                      rw [List.mem_singleton.mp hf]
                      intro hne
                      exact fragWidth_pos cw k s _ hcw hs hk hne
              · rw [if_neg hov] at hl
                have hfit : cll + fragWidth cw k s frag ≤ maxLen := not_lt.mp hov
                refine ih ss closed (cur ++ [(frag, s)]) _ _ hslen hss hclosed ?_ ?_ ?_ l hl
                · rw [lineWidth_append, lineWidth_singleton, hcll]
                · refine Or.inl ?_
                  rw [lineWidth_append, lineWidth_singleton, ← hcll]
                  exact hfit
                · intro f hf
                  rcases List.mem_append.mp hf with h' | h'
                  · exact hpos f h'
                  · rw [List.mem_singleton.mp h']
                    intro hne
                    exact fragWidth_pos cw k s _ hcw hs hk hne

/-- Replacing the head fragment's style by one of equal measured width
preserves the C1 property. -/
theorem lineOk_head_style (cw : CharWidths) (k maxLen : ℚ) (t0 : Text)
    (st0 st0' : Style) (tail : Line)
    (hw : fragWidth cw k st0' t0 = fragWidth cw k st0 t0)
    (h : lineOk cw k maxLen ((t0, st0) :: tail)) :
    lineOk cw k maxLen ((t0, st0') :: tail) := by
  rcases h with h | ⟨t, st, hf, hwt⟩
  · refine Or.inl ?_
    have e1 : lineWidth cw k ((t0, st0') :: tail) =
        fragWidth cw k st0' t0 + lineWidth cw k tail := by
      simp [lineWidth]
    have e2 : lineWidth cw k ((t0, st0) :: tail) =
        fragWidth cw k st0 t0 + lineWidth cw k tail := by
      simp [lineWidth]
    rw [e1, hw, ← e2]
    exact h
  · by_cases h0 : t0 = ([] : Text)
    · have e : ((t0, st0') :: tail).filter (fun f => !f.1.isEmpty) =
          tail.filter (fun f => !f.1.isEmpty) := by
        simp [List.filter_cons, h0]
      have e' : ((t0, st0) :: tail).filter (fun f => !f.1.isEmpty) =
          tail.filter (fun f => !f.1.isEmpty) := by
        simp [List.filter_cons, h0]
      rw [e'] at hf
      exact Or.inr ⟨t, st, by rw [e]; exact hf, hwt⟩
    · have e' : ((t0, st0) :: tail).filter (fun f => !f.1.isEmpty) =
          (t0, st0) :: tail.filter (fun f => !f.1.isEmpty) := by
        simp [List.filter_cons, h0]
      rw [e'] at hf
      obtain ⟨h1, h2⟩ := List.cons_eq_cons.mp hf
      obtain ⟨rfl, rfl⟩ := Prod.mk.injEq .. ▸ h1
      refine Or.inr ⟨t0, st0', ?_, by rw [hw]; exact hwt⟩
      simp [List.filter_cons, h0, h2]

/-- The alignment pass only rewrites the head fragment's `margin-left` or
`word-spacing`; it preserves the C1 property of a line. -/
theorem alignLine_lineOk (cw : CharWidths) (k maxLen : ℚ) (align : String)
    (isLast : Bool) (line : Line) (h : lineOk cw k maxLen line) :
    lineOk cw k maxLen (alignLine cw k maxLen align isLast line) := by
  cases line with
  | nil => exact h
  | cons f tail =>
      obtain ⟨t0, st0⟩ := f
      simp only [alignLine]
      by_cases h1 : align = ("right")
      · rw [if_pos h1]
        exact lineOk_head_style cw k maxLen t0 st0 _ tail rfl h
      · rw [if_neg h1]
        by_cases h2 : align = ("center")
        · rw [if_pos h2]
          exact lineOk_head_style cw k maxLen t0 st0 _ tail rfl h
        · rw [if_neg h2]
          by_cases h3 : align = ("justify")
          · rw [if_pos h3]
            exact lineOk_head_style cw k maxLen t0 st0 _ tail rfl h
          · rw [if_neg h3]
            exact h

theorem mem_alignAll (cw : CharWidths) (k maxLen : ℚ) (align : String)
    (total : ℕ) :
    ∀ (i : ℕ) (lines : List Line) (l : Line),
      l ∈ alignAll cw k maxLen align total i lines →
      ∃ orig ∈ lines, ∃ b, l = alignLine cw k maxLen align b orig := by
  intro i lines
  induction lines generalizing i with
  | nil => intro l hl; simp [alignAll] at hl
  | cons x xs ih =>
      intro l hl
      simp only [alignAll] at hl
      rcases List.mem_cons.mp hl with h | h
      · exact ⟨x, List.mem_cons_self x xs, _, h⟩
      · obtain ⟨orig, ho, b, hb⟩ := ih (i + 1) l h
        exact ⟨orig, List.mem_cons_of_mem x ho, b, hb⟩

theorem applyAlignment_lineOk (cw : CharWidths) (k maxLen : ℚ)
    (lastStyle : Option Style) (lines : List Line)
    (h : ∀ l ∈ lines, lineOk cw k maxLen l) :
    ∀ l ∈ applyAlignment cw k maxLen lastStyle lines, lineOk cw k maxLen l := by
  intro l hl
  cases lastStyle with
  | none => exact h l hl
  | some st =>
      simp only [applyAlignment] at hl
      split at hl
      · obtain ⟨orig, ho, b, rfl⟩ := mem_alignAll cw k maxLen st.textAlign
          lines.length 0 lines l hl
        exact alignLine_lineOk cw k maxLen st.textAlign b orig (h orig ho)
      · exact h l hl

/-- C1: For every queue of styled text fragments and every max line width
(with positive font metrics and a non-negative max width), no line produced
by `splitFragmentsIntoLines` has a measured width exceeding the max width,
except a line whose only non-empty fragment is a single unsplittable
fragment longer than the max width, emitted verbatim alone. -/
theorem splitFragmentsIntoLines_max_width (cw : CharWidths) (k maxLen : ℚ)
    (fragments : List Text) (styles : List Style)
    (hk : 0 < k) (hmax : 0 ≤ maxLen)
    (hlen : styles.length = fragments.length)
    (hcw : ∀ ff fs c, 0 < cw ff fs c)
    (hfs : ∀ st ∈ styles, 0 < st.fontSize) :
    ∀ line ∈ splitFragmentsIntoLines cw k fragments styles maxLen,
      lineWidth cw k line ≤ maxLen ∨ oversizedAlone cw k maxLen line := by
  intro line hline
  have hcore : ∀ l ∈ (splitFragmentsIntoLinesCore cw k fragments styles maxLen).1,
      lineOk cw k maxLen l := by
    intro l hl
    exact splitLoop_ok cw k maxLen hk hmax hcw fragments styles [] [] 0 none
      hlen hfs (by intro l' hl'; cases hl') rfl
      (Or.inl (by rw [lineWidth_nil]; exact hmax))
      (by intro f hf; cases hf) l hl
  exact applyAlignment_lineOk cw k maxLen _ _ hcore line hline

/-- Unit character widths, used to build concrete witnesses. -/
def cwUnit : CharWidths := fun _ _ _ => 1

/-- Witness for C1 at a concrete input: two fragments of metric widths 36 and
24 on a line of width 70. -/
theorem splitFragmentsIntoLines_max_width_witness :
    lineWidth cwUnit 1
        ((splitFragmentsIntoLines cwUnit 1 [("abc").data, ("de").data]
          [{}, {}] 70).headD []) ≤ 70 ∨
      oversizedAlone cwUnit 1 70
        ((splitFragmentsIntoLines cwUnit 1 [("abc").data, ("de").data]
          [{}, {}] 70).headD []) := by
  have hmem : (splitFragmentsIntoLines cwUnit 1 [("abc").data, ("de").data]
      [{}, {}] 70).headD [] ∈
      splitFragmentsIntoLines cwUnit 1 [("abc").data, ("de").data] [{}, {}] 70 := by
    norm_num +decide [splitFragmentsIntoLines, splitFragmentsIntoLinesCore,
      splitLoop, applyAlignment, fragWidth, stringUnitWidth, cwUnit, lineSep,
      splitTextToSize, splitGo, splitFuel, splitWords]
  exact splitFragmentsIntoLines_max_width cwUnit 1 70
    [("abc").data, ("de").data] [{}, {}]
    (by decide) (by decide) rfl
    (fun ff fs c => show (0:ℚ) < 1 by decide)
    (by intro st hst
        rcases List.mem_cons.mp hst with rfl | hst
        · decide
        · rcases List.mem_singleton.mp hst with rfl
          decide)
    _ hmem

/-! ### C7: justified word spacing -/

theorem alignAll_length (cw : CharWidths) (k maxLen : ℚ) (align : String)
    (total : ℕ) : ∀ (i : ℕ) (lines : List Line),
    (alignAll cw k maxLen align total i lines).length = lines.length := by
  intro i lines
  induction lines generalizing i with
  | nil => rfl
  | cons x xs ih => simp [alignAll, ih]

theorem alignAll_get (cw : CharWidths) (k maxLen : ℚ) (align : String)
    (total : ℕ) : ∀ (lines : List Line) (i0 j : ℕ) (hj : j < lines.length),
    (alignAll cw k maxLen align total i0 lines).get
        ⟨j, by rw [alignAll_length]; exact hj⟩ =
      alignLine cw k maxLen align (decide (i0 + j = total - 1))
        (lines.get ⟨j, hj⟩) := by
  intro lines
  induction lines with
  | nil => intro i0 j hj; exact absurd hj (by simp)
  | cons x xs ih =>
      intro i0 j hj
      cases j with
      | zero => simp [alignAll]
      | succ j' =>
          have hj' : j' < xs.length := by simpa using hj
          simp only [alignAll, List.get_cons_succ]
          have harith : i0 + (j' + 1) = i0 + 1 + j' := by omega
          rw [harith]
          exact ih (i0 + 1) j' hj'

/-- C7: For every justified paragraph (the last shifted style requests
`text-align: justify`): each non-empty produced line that is not the final
line and has at least one inter-word gap receives word-spacing equal to
(max width − measured line width) / gaps, so that measured text width plus
total added gap width equals the max width; the final line always receives
zero added word-spacing. -/
theorem splitFragmentsIntoLines_justify (cw : CharWidths) (k maxLen : ℚ)
    (fragments : List Text) (styles : List Style) (st : Style)
    (hlast : (splitFragmentsIntoLinesCore cw k fragments styles maxLen).2.1 =
      some st)
    (hjust : st.textAlign = ("justify")) :
    ∀ (i : ℕ)
      (hi : i < (splitFragmentsIntoLinesCore cw k fragments styles maxLen).1.length)
      (t0 : Text) (st0 : Style) (tail : Line),
      (splitFragmentsIntoLinesCore cw k fragments styles maxLen).1.get ⟨i, hi⟩ =
        (t0, st0) :: tail →
      ∃ (W : ℚ) (hi' : i <
          (splitFragmentsIntoLines cw k fragments styles maxLen).length),
        (splitFragmentsIntoLines cw k fragments styles maxLen).get ⟨i, hi'⟩ =
          (t0, { st0 with wordSpacing := W }) :: tail ∧
        (i ≠ (splitFragmentsIntoLinesCore cw k fragments styles maxLen).1.length - 1 →
          0 < countSpaces (lineText ((t0, st0) :: tail)) →
          W = (maxLen - measuredLineWidth cw k ((t0, st0) :: tail)) /
              (countSpaces (lineText ((t0, st0) :: tail)) : ℚ) ∧
            measuredLineWidth cw k ((t0, st0) :: tail) +
              (countSpaces (lineText ((t0, st0) :: tail)) : ℚ) * W = maxLen) ∧
        (i = (splitFragmentsIntoLinesCore cw k fragments styles maxLen).1.length - 1 →
          W = 0) := by
  intro i hi t0 st0 tail hline
  set core := splitFragmentsIntoLinesCore cw k fragments styles maxLen with hcore
  have hout : splitFragmentsIntoLines cw k fragments styles maxLen =
      alignAll cw k maxLen st.textAlign core.1.length 0 core.1 := by
    rw [splitFragmentsIntoLines]
    rw [← hcore, hlast]
    simp only [applyAlignment]
    rw [if_pos (Or.inr (Or.inr hjust))]
  have hi' : i < (splitFragmentsIntoLines cw k fragments styles maxLen).length := by
    rw [hout, alignAll_length]
    exact hi
  have hgetAll : ∀ (h : i <
      (splitFragmentsIntoLines cw k fragments styles maxLen).length),
      (splitFragmentsIntoLines cw k fragments styles maxLen).get ⟨i, h⟩ =
      alignLine cw k maxLen st.textAlign (decide (0 + i = core.1.length - 1))
        (core.1.get ⟨i, hi⟩) := by
    rw [hout]
    intro h
    exact alignAll_get cw k maxLen st.textAlign core.1.length core.1 0 i hi
  have hget := hgetAll hi'
  rw [hline, hjust] at hget
  simp only [alignLine] at hget
  simp only [if_true] at hget
  set g := countSpaces (lineText ((t0, st0) :: tail)) with hg
  set L := measuredLineWidth cw k ((t0, st0) :: tail) with hL
  set W : ℚ := if (decide (0 + i = core.1.length - 1) : Bool) = true then 0
    else if 0 < g then (maxLen - L) / (g : ℚ) else 0 with hW
  refine ⟨W, hi', ?_, ?_, ?_⟩
  · exact hget
  · intro hne hgap
    have hlb : (decide (0 + i = core.1.length - 1) : Bool) = false := by
      simp only [decide_eq_false_iff_not]
      omega
    have hWval : W = (maxLen - L) / (g : ℚ) := by
      rw [hW, hlb]
      simp [hgap]
    refine ⟨hWval, ?_⟩
    rw [hWval]
    have hg0 : (g : ℚ) ≠ 0 := (Nat.cast_pos.mpr hgap).ne'
    field_simp
  · intro heq
    have hlb : (decide (0 + i = core.1.length - 1) : Bool) = true := by
      simp only [decide_eq_true_eq]
      omega
    rw [hW, hlb]
    simp

/-- Witness for C7: a one-fragment paragraph `-aaa bbb ccc ddd-` justified to
width 108: the first line gets positive word spacing, the last gets zero. -/
theorem splitFragmentsIntoLines_justify_witness :
    ∃ (W : ℚ) (hi' : 0 <
        (splitFragmentsIntoLines cwUnit 1 [("aaa bbb ccc ddd").data]
          [{ textAlign := ("justify") }] 108).length),
      (splitFragmentsIntoLines cwUnit 1 [("aaa bbb ccc ddd").data]
          [{ textAlign := ("justify") }] 108).get ⟨0, hi'⟩ =
        (("aaa bbb").data,
          { ({ textAlign := ("justify") } : Style) with wordSpacing := W }) :: [] ∧
      (0 ≠ (splitFragmentsIntoLinesCore cwUnit 1 [("aaa bbb ccc ddd").data]
          [{ textAlign := ("justify") }] 108).1.length - 1 →
        0 < countSpaces (lineText ((("aaa bbb").data,
            ({ textAlign := ("justify") } : Style)) :: [])) →
        W = (108 - measuredLineWidth cwUnit 1 ((("aaa bbb").data,
              ({ textAlign := ("justify") } : Style)) :: [])) /
            (countSpaces (lineText ((("aaa bbb").data,
              ({ textAlign := ("justify") } : Style)) :: [])) : ℚ) ∧
          measuredLineWidth cwUnit 1 ((("aaa bbb").data,
              ({ textAlign := ("justify") } : Style)) :: []) +
            (countSpaces (lineText ((("aaa bbb").data,
              ({ textAlign := ("justify") } : Style)) :: [])) : ℚ) * W = 108) ∧
      (0 = (splitFragmentsIntoLinesCore cwUnit 1 [("aaa bbb ccc ddd").data]
          [{ textAlign := ("justify") }] 108).1.length - 1 →
        W = 0) := by
  refine splitFragmentsIntoLines_justify cwUnit 1 108
    [("aaa bbb ccc ddd").data] [{ textAlign := ("justify") }]
    { textAlign := ("justify") } ?_ rfl 0 ?_ (("aaa bbb").data)
    { textAlign := ("justify") } [] ?_
  · norm_num +decide [splitFragmentsIntoLinesCore, splitLoop, fragWidth,
      stringUnitWidth, cwUnit, lineSep, splitTextToSize, splitGo, splitFuel,
      splitWords]
  · norm_num +decide [splitFragmentsIntoLinesCore, splitLoop, fragWidth,
      stringUnitWidth, cwUnit, lineSep, splitTextToSize, splitGo, splitFuel,
      splitWords]
  · norm_num +decide [splitFragmentsIntoLinesCore, splitLoop, fragWidth,
      stringUnitWidth, cwUnit, lineSep, splitTextToSize, splitGo, splitFuel,
      splitWords]

/-! ### C10: the input queues are destructively consumed -/

theorem splitLoop_final_queues (cw : CharWidths) (k maxLen : ℚ) :
    ∀ (fragments : List Text) (styles : List Style) (closed : List Line)
      (cur : Line) (cll : ℚ) (lastStyle : Option Style),
      (splitLoop cw k maxLen fragments styles closed cur cll lastStyle).2.2.1 = [] ∧
      (splitLoop cw k maxLen fragments styles closed cur cll lastStyle).2.2.2 =
        styles.drop fragments.length := by
  intro fragments
  induction fragments with
  | nil => intro styles closed cur cll lastStyle; exact ⟨rfl, rfl⟩
  | cons frag frags ih =>
      intro styles closed cur cll lastStyle
      have hdrop : styles.tail.drop frags.length = styles.drop (frags.length + 1) := by
        cases styles <;> simp
      simp only [splitLoop]
      by_cases h1 : frag = ([] : Text)
      · rw [if_pos h1]
        rw [List.length_cons, ← hdrop]
        exact ih styles.tail _ _ _ _
      · rw [if_neg h1]
        by_cases h2 : frag = lineSep
        · rw [if_pos h2]
          rw [List.length_cons, ← hdrop]
          exact ih styles.tail _ _ _ _
        · rw [if_neg h2]
          by_cases h3 : maxLen < cll +
              fragWidth cw k (styles.head?.getD default) frag
          · rw [if_pos h3]
            rcases hp : splitTextToSize
                (fragWidth cw k (styles.head?.getD default)) maxLen cll frag with
              _ | ⟨p1, rest⟩
            · rw [List.length_cons, ← hdrop]
              exact ih styles.tail _ _ _ _
            · rcases rest with _ | ⟨r, rs⟩
              · rw [List.length_cons, ← hdrop]
                exact ih styles.tail _ _ _ _
              · rw [List.length_cons, ← hdrop]
                exact ih styles.tail _ _ _ _
          · rw [if_neg h3]
            rw [List.length_cons, ← hdrop]
            exact ih styles.tail _ _ _ _

/-- Counterexample to C10 as stated: with an empty fragments array and a
non-empty styles array, the loop never runs and the styles array is NOT
emptied. -/
theorem splitFragments_consumes_counterexample :
    ¬ ((splitFragmentsIntoLinesCore cwUnit 1 [] [{}] 10).2.2.1 = [] ∧
       (splitFragmentsIntoLinesCore cwUnit 1 [] [{}] 10).2.2.2 = []) := by
  intro h
  have h2 := h.2
  simp [splitFragmentsIntoLinesCore, splitLoop] at h2

/-- C10 (amended): `splitFragmentsIntoLines` destructively consumes its
inputs: the fragments array is always emptied, and the styles array is
emptied whenever it is no longer than the fragments array — in particular for
the equally long paired buffers that `renderParagraph` passes (as fresh
spread copies). -/
theorem splitFragments_consumes (cw : CharWidths) (k maxLen : ℚ)
    (fragments : List Text) (styles : List Style) :
    (splitFragmentsIntoLinesCore cw k fragments styles maxLen).2.2.1 = [] ∧
    (styles.length ≤ fragments.length →
      (splitFragmentsIntoLinesCore cw k fragments styles maxLen).2.2.2 = []) := by
  obtain ⟨h1, h2⟩ := splitLoop_final_queues cw k maxLen fragments styles [] [] 0 none
  refine ⟨h1, fun hle => ?_⟩
  rw [splitFragmentsIntoLinesCore, h2]
  exact List.drop_eq_nil_of_le hle

/-- Witness for C10 (amended) on a one-fragment, one-style call. -/
theorem splitFragments_consumes_witness :
    (splitFragmentsIntoLinesCore cwUnit 1 [("ab").data] [{}] 10).2.2.1 = [] ∧
    (splitFragmentsIntoLinesCore cwUnit 1 [("ab").data] [{}] 10).2.2.2 = [] := by
  obtain ⟨h1, h2⟩ := splitFragments_consumes cwUnit 1 10 [("ab").data] [{}]
  exact ⟨h1, h2 (by decide)⟩

/-! ### Renderer state, watch predicates and whitespace purging -/

/-- `margins_doc` (`fromHTML.ts:612`): top/bottom always present, the others
optional (accessed with `|| 0` / `!== undefined` guards in the source). -/
structure Margins where
  top : ℚ := 0
  bottom : ℚ := 0
  left : Option ℚ := none
  right : Option ℚ := none
  width : Option ℚ := none
  deriving Repr, DecidableEq, Inhabited

/-- The document writer's page geometry (`pdf.internal.pageSize` and
`margins_doc`). -/
structure Doc where
  pageWidth : ℚ := 0
  pageHeight : ℚ := 0
  margins : Margins := {}
  deriving Repr, DecidableEq, Inhabited

/-- The data a watch predicate reads off the node passed to it:
whether it is an element node, its `offsetWidth`, and its computed `clear`. -/
structure NodeArg where
  isElement : Bool := true
  offsetWidth : ℚ := 0
  clear : String := ("none")
  deriving Repr, DecidableEq, Inhabited

/-- The two watch-predicate closures pushed by `renderImage`
(`ImageRenderer.ts:189-250`), defunctionalized: their captured parameters
become constructor arguments. -/
inductive WatchFn where
  | restore (diffX thresholdY diffWidth : ℚ)
  | clearBoth (yAfter : ℚ) (pages : ℕ)
  deriving Repr, DecidableEq

/-- The renderer's mutable state: cursor position, available width
(`settings.width`), the watch-predicate list, the prior block's
margin-bottom, and the page count. -/
structure RState where
  x : ℚ := 0
  y : ℚ := 0
  width : ℚ := 0
  watchFunctions : List WatchFn := []
  priorMarginBottom : ℚ := 0
  pages : ℕ := 1
  deriving Repr, DecidableEq, Inhabited

/-- Runs one watch predicate (`ImageRenderer.ts:190-249`): `true` means
"resolved, remove me".  The restore predicate undoes the float's width/x
adaptations once `y` passes its threshold (or early, when a visited element
would overflow the shrunk frame); the clear predicate forces `y` down to
`yAfter` when a `clear: both` element is visited before natural expiry. -/
def runWatch (doc : Doc) (wf : WatchFn) (s : RState) (el : Option NodeArg) :
    Bool × RState :=
  match wf with
  | .restore diffX thresholdY diffWidth =>
      if thresholdY ≤ s.y then
        (true, { s with x := s.x + diffX, width := s.width + diffWidth })
      else
        match el with
        | some e =>
            if e.isElement then
              let maxX := (doc.margins.left.getD 0) +
                (doc.margins.width.getD doc.pageWidth)
              if maxX < s.x + e.offsetWidth then
                (true,
                  { s with
                      x := s.x + diffX
                      y := thresholdY
                      width := s.width + diffWidth })
              else (false, s)
            else (false, s)
        | none => (false, s)
  | .clearBoth yAfter pages =>
      if s.y < yAfter ∧ pages = s.pages then
        match el with
        | some e =>
            if e.isElement ∧ e.clear = ("both") then
              (true, { s with y := yAfter })
            else (false, s)
        | none => (false, s)
      else (true, s)

/-- Runs the predicates of a list in order, collecting the survivors
(`Renderer.ts:102-118`). -/
def runWatchList (doc : Doc) (el : Option NodeArg) :
    List WatchFn → RState → Bool × RState × List WatchFn
  | [], s => (false, s, [])
  | wf :: rest, s =>
      let fs := runWatch doc wf s el
      let rr := runWatchList doc el rest fs.2
      (fs.1 || rr.1, rr.2.1, if fs.1 then rr.2.2 else wf :: rr.2.2)

/-- `executeWatchFunctions` (`Renderer.ts:102-118`): sweeps the stored
predicate list, keeps the unresolved ones in order, and reports whether any
predicate fired. -/
def executeWatchFunctions (doc : Doc) (s : RState) (el : Option NodeArg) :
    Bool × RState :=
  let r := runWatchList doc el s.watchFunctions s
  (r.1, { r.2.1 with watchFunctions := r.2.2 })

theorem runWatch_pmb (doc : Doc) (wf : WatchFn) (s : RState)
    (el : Option NodeArg) :
    (runWatch doc wf s el).2.priorMarginBottom = s.priorMarginBottom := by
  rcases wf with ⟨dx, ty, dw⟩ | ⟨ya, pg⟩ <;> rcases el with _ | e <;>
    simp only [runWatch] <;> (repeat' split) <;> rfl

theorem runWatchList_pmb (doc : Doc) (el : Option NodeArg) :
    ∀ (l : List WatchFn) (s : RState),
      (runWatchList doc el l s).2.1.priorMarginBottom = s.priorMarginBottom := by
  intro l
  induction l with
  | nil => intro s; rfl
  | cons wf rest ih =>
      intro s
      simp only [runWatchList]
      rw [ih, runWatch_pmb]

theorem executeWatchFunctions_pmb (doc : Doc) (s : RState)
    (el : Option NodeArg) :
    (executeWatchFunctions doc s el).2.priorMarginBottom = s.priorMarginBottom := by
  simp only [executeWatchFunctions]
  exact runWatchList_pmb doc el s.watchFunctions s

/-- JS `trimStart` under the modelled whitespace class. -/
def trimStartJs (t : Text) : Text := t.dropWhile isJsWs

/-- JS `trimEnd` under the modelled whitespace class. -/
def trimEndJs (t : Text) : Text := (t.reverse.dropWhile isJsWs).reverse

/-- JS `trim`. -/
def trimJs (t : Text) : Text := trimEndJs (trimStartJs t)

/-- `replace(/\s+/g, ' ')`: collapse every whitespace run to one space.
The flag records whether the previous character was part of a run. -/
def collapseWsAux : Bool → Text → Text
  | _, [] => []
  | prevWs, c :: cs =>
      if isJsWs c then
        if prevWs then collapseWsAux true cs
        else (' ') :: collapseWsAux true cs
      else c :: collapseWsAux false cs

/-- `replace(/\s+/g, ' ')` on a whole fragment. -/
def collapseWs (t : Text) : Text := collapseWsAux false t

/-- `/\s+$/.test(fragment)`: does the fragment end in whitespace? -/
def endsWithWs (t : Text) : Bool :=
  match t.getLast? with
  | some c => isJsWs c
  | none => false

/-- The left-trim pass of `purgeWhitespace` (whitespace.ts:12-19):
`trimStart` each fragment from the left until one stays non-empty. -/
def purgeLeft : List Text → List Text
  | [] => []
  | t :: ts =>
      let t1 := trimStartJs t
      if t1.isEmpty then t1 :: purgeLeft ts else t1 :: ts

/-- The right-trim pass (whitespace.ts:22-29), written on the reversed list. -/
def purgeRightRev : List Text → List Text
  | [] => []
  | t :: ts =>
      let t1 := trimEndJs t
      if t1.isEmpty then t1 :: purgeRightRev ts else t1 :: ts

/-- The right-trim pass of `purgeWhitespace`. -/
def purgeRight (ts : List Text) : List Text :=
  (purgeRightRev ts.reverse).reverse

/-- The normalization pass (whitespace.ts:31-48): collapse internal
whitespace, strip a leading space after a fragment that ended in whitespace,
leave the line-separator marker verbatim. -/
def purgeNormalize : Bool → List Text → List Text
  | _, [] => []
  | trailingSpace, t :: ts =>
      if t = lineSep then t :: purgeNormalize trailingSpace ts
      else
        let f1 := collapseWs t
        let f2 := if trailingSpace then trimStartJs f1 else f1
        let trailing1 := if f2.isEmpty then trailingSpace else endsWithWs f2
        f2 :: purgeNormalize trailing1 ts

/-- `purgeWhitespace` (whitespace.ts:5-51). -/
def purgeWhitespace (array : List Text) : List Text :=
  purgeNormalize true (purgeRight (purgeLeft array))

/-- The `!fragments.join('').trim()` emptiness check of `renderParagraph`
(`Renderer.ts:205`), negated. -/
def hasContent (ts : List Text) : Bool :=
  !(trimJs ts.flatten).isEmpty

/-! ### The flow renderer (`Renderer.ts:193-462`) -/

/-- The per-line commit loop of `renderParagraph` (`Renderer.ts:275-447`):
page break before an overflowing line, advance `y` by the line height,
sweep the watch predicates after each committed non-empty line, and re-break
the remaining lines when a predicate fired.  The fuel argument is a
termination counter for the re-break path (the source loop terminates
because every fire removes at least one predicate); callers supply enough
fuel. -/
def renderLinesGo (doc : Doc) (cw : CharWidths) (k : ℚ) :
    ℕ → List Line → RState → RState
  | 0, _, s => s
  | fuel + 1, lines, s =>
      match lines with
      | [] => s
      | line :: rest =>
          let r := 12 / k
          let maxLineHeight := line.foldl
            (fun m f => if !(trimJs f.1).isEmpty then
              max (max m f.2.lineHeight) f.2.fontSize else m) 0
          let lineHeight := maxLineHeight * r
          let s1 :=
            if doc.pageHeight - doc.margins.bottom < s.y + lineHeight ∧
                doc.margins.top < s.y then
              let sb := { s with pages := s.pages + 1, y := doc.margins.top }
              match line.head? with
              | some f =>
                  let flh := max (if f.2.lineHeight = 0 then 1 else f.2.lineHeight)
                    (if f.2.fontSize = 0 then 1 else f.2.fontSize)
                  { sb with y := sb.y + flh * r }
              | none => sb
            else s
          let s2 := { s1 with y := s1.y + maxLineHeight * r }
          if line.isEmpty then
            renderLinesGo doc cw k fuel rest s2
          else
            let fs := executeWatchFunctions doc s2 none
            if fs.1 ∧ ¬ rest.isEmpty then
              let localFragments := rest.flatMap
                (fun l => (l.filter (fun f => !f.1.isEmpty)).map
                  (fun f => f.1 ++ [(' ')]))
              let localStyles := rest.flatMap
                (fun l => (l.filter (fun f => !f.1.isEmpty)).map Prod.snd)
              let newLines := splitFragmentsIntoLines cw k
                (purgeWhitespace localFragments) localStyles fs.2.width
              renderLinesGo doc cw k fuel (rest ++ newLines) fs.2
            else
              renderLinesGo doc cw k fuel rest fs.2

/-- The paragraph buffer (`Paragraph` in `src/src/types.ts`). -/
structure Paragraph where
  text : List Text := []
  style : List Style := []
  blockstyle : Style := {}
  priorblockstyle : Option Style := none
  deriving Repr, DecidableEq, Inhabited

/-- `resetParagraph` (`Renderer.ts:180-187`). -/
def resetParagraph (priorBlockstyle : Option Style) : Paragraph :=
  { text := [], style := [], blockstyle := {}, priorblockstyle := priorBlockstyle }

/-- `renderParagraph` (`Renderer.ts:193-462`): purge the buffered fragments,
reset the buffer, bail out on blank content, break the fragments into lines,
apply collapsed block spacing before/after, update the stored prior
margin-bottom, honor `page-break-before: always`, and commit the lines. -/
def renderParagraph (doc : Doc) (cw : CharWidths) (k : ℚ) (fuel : ℕ)
    (s : RState) (p : Paragraph) : RState × Paragraph :=
  let blockstyle := p.blockstyle
  let fragments := purgeWhitespace p.text
  let styles := p.style
  let p1 := resetParagraph (some blockstyle)
  if ¬ hasContent fragments then (s, p1)
  else
    let lines := splitFragmentsIntoLines cw k fragments styles s.width
    let fontToUnitRatio := (12 : ℚ) / k
    let paragraphspacing_before :=
      (max (blockstyle.marginTop - s.priorMarginBottom) 0 +
        blockstyle.paddingTop) * fontToUnitRatio
    let paragraphspacing_after :=
      (blockstyle.marginBottom + blockstyle.paddingBottom) * fontToUnitRatio
    let s1 := { s with priorMarginBottom := blockstyle.marginBottom }
    let s2 := if blockstyle.pageBreakBefore = ("always") then
        { s1 with pages := s1.pages + 1, y := 0 }
      else s1
    let s3 := { s2 with y := s2.y + paragraphspacing_before }
    let s4 := renderLinesGo doc cw k fuel lines s3
    ({ s4 with y := s4.y + paragraphspacing_after }, p1)

/-! ### C2: block-boundary spacing -/

set_option linter.unreachableTactic false in
set_option linter.unusedTactic false in
theorem renderLinesGo_pmb (doc : Doc) (cw : CharWidths) (k : ℚ) :
    ∀ (fuel : ℕ) (lines : List Line) (s : RState),
      (renderLinesGo doc cw k fuel lines s).priorMarginBottom =
        s.priorMarginBottom := by
  intro fuel
  induction fuel with
  | zero => intro lines s; rfl
  | succ f ih =>
      intro lines s
      cases lines with
      | nil => rfl
      | cons line rest =>
          simp only [renderLinesGo]
          (repeat' split) <;>
            rw [ih] <;>
            (try rw [executeWatchFunctions_pmb]) <;>
            (repeat' split) <;> rfl

/-- C2: On a non-blank block boundary, `renderParagraph` advances `y` before
the block's lines by `(max(margin-top − prior margin-bottom, 0) +
padding-top) * (12 / k)`, advances `y` after the committed lines by
`(margin-bottom + padding-bottom) * (12 / k)`, and stores the block's
margin-bottom as the new prior margin-bottom (after first honoring
`page-break-before: always`). -/
theorem renderParagraph_spacing (doc : Doc) (cw : CharWidths) (k : ℚ)
    (fuel : ℕ) (s : RState) (p : Paragraph)
    (hcontent : hasContent (purgeWhitespace p.text) = true) :
    (renderParagraph doc cw k fuel s p).1.priorMarginBottom =
      p.blockstyle.marginBottom ∧
    (renderParagraph doc cw k fuel s p).1.y =
      (renderLinesGo doc cw k fuel
        (splitFragmentsIntoLines cw k (purgeWhitespace p.text) p.style s.width)
        { s with
            priorMarginBottom := p.blockstyle.marginBottom
            pages := if p.blockstyle.pageBreakBefore = ("always") then
              s.pages + 1 else s.pages
            y := (if p.blockstyle.pageBreakBefore = ("always") then 0 else s.y) +
              (max (p.blockstyle.marginTop - s.priorMarginBottom) 0 +
                p.blockstyle.paddingTop) * (12 / k) }).y +
      (p.blockstyle.marginBottom + p.blockstyle.paddingBottom) * (12 / k) := by
  have hnot : ¬ ¬ hasContent (purgeWhitespace p.text) = true := fun h => h hcontent
  constructor
  · simp only [renderParagraph]
    rw [if_neg hnot]
    simp only [renderLinesGo_pmb]
    split <;> rfl
  · simp only [renderParagraph]
    rw [if_neg hnot]
    by_cases hpb : p.blockstyle.pageBreakBefore = ("always") <;>
      simp [hpb]

/-- Witness for C2 at a concrete input: one block with margin-top 4,
padding-top 1, margin-bottom 3, padding-bottom 2, against a prior
margin-bottom of 1 at y = 10: the lines start from y = 14 and the result
gains 5 afterwards. -/
theorem renderParagraph_spacing_witness :
    (renderParagraph ({ pageHeight := 300 }) cwUnit 12 1
      ({ x := 4, y := 10, width := 100, priorMarginBottom := 1 })
      ({ text := [("hi").data], style := [{}],
         blockstyle := { marginTop := 4
                         marginBottom := 3
                         paddingTop := 1
                         paddingBottom := 2 } })).1.priorMarginBottom = 3 ∧
    (renderParagraph ({ pageHeight := 300 }) cwUnit 12 1
      ({ x := 4, y := 10, width := 100, priorMarginBottom := 1 })
      ({ text := [("hi").data], style := [{}],
         blockstyle := { marginTop := 4
                         marginBottom := 3
                         paddingTop := 1
                         paddingBottom := 2 } })).1.y =
      (renderLinesGo ({ pageHeight := 300 }) cwUnit 12 1
        (splitFragmentsIntoLines cwUnit 12
          (purgeWhitespace [("hi").data]) [{}] 100)
        ({ x := 4, y := 14, width := 100, priorMarginBottom := 3 })).y + 5 := by
  have h := renderParagraph_spacing ({ pageHeight := 300 }) cwUnit 12 1
    ({ x := 4, y := 10, width := 100, priorMarginBottom := 1 })
    ({ text := [("hi").data], style := [{}],
       blockstyle := { marginTop := 4
                       marginBottom := 3
                       paddingTop := 1
                       paddingBottom := 2 } })
    (by decide)
  refine ⟨h.1, ?_⟩
  rw [h.2]
  have hstate : ({ ({ x := 4, y := 10, width := 100, priorMarginBottom := 1 } :
      RState) with
        priorMarginBottom := (3 : ℚ)
        pages := if (({ marginTop := 4
                        marginBottom := 3
                        paddingTop := 1
                        paddingBottom := 2 } : Style)).pageBreakBefore =
            ("always") then 1 + 1 else 1
        y := (if (({ marginTop := 4
                     marginBottom := 3
                     paddingTop := 1
                     paddingBottom := 2 } : Style)).pageBreakBefore =
            ("always") then 0 else (10 : ℚ)) +
          (max ((4 : ℚ) - 1) 0 + 1) * (12 / 12) } : RState) =
      ({ x := 4, y := 14, width := 100, priorMarginBottom := 3 } : RState) := by
    norm_num +decide [max_def]
  rw [hstate]
  norm_num

/-! ### C8: float placement, restoration and clear handling
(`ImageRenderer.ts:183-260`) -/

/-- The float-handling tail of `renderImage` (`ImageRenderer.ts:183-260`):
for a floated image it registers the restore and clear watch predicates,
shrinks the available width by the full margin-box width and, for a left
float, shifts `x` right by it; a non-floated image just advances `y`. -/
def applyImageFloat (s : RState) (float : String)
    (imgWidth imgHeight asl asr ast asb : ℚ) : RState :=
  if float = ("right") ∨ float = ("left") then
    let thresholdY := s.y + imgHeight + ast + asb
    let diffWidth := imgWidth + asl + asr
    let diffX := if float = ("left") then -(imgWidth + asl + asr) else 0
    let s1 := { s with watchFunctions := s.watchFunctions ++
        [WatchFn.restore diffX thresholdY diffWidth,
          WatchFn.clearBoth (s.y + imgHeight) s.pages] }
    let s2 := { s1 with width := s1.width - diffWidth }
    if float = ("left") then { s2 with x := s2.x + diffWidth } else s2
  else
    { s with y := s.y + imgHeight + ast + asb }

/-- Counterexample to C8 as stated: with a left float of height 10 whose
margin-box extends 2 further down (`additionalSpaceTop = 2`), the registered
clear predicate fires on a `clear: both` element but forces `y` only to 10,
short of the float's bottom edge 12 (the restore threshold). -/
theorem renderImage_clear_counterexample :
    (applyImageFloat ({ x := 0, y := 0, width := 100 }) ("left")
        20 10 0 0 2 0).watchFunctions.getLastD (WatchFn.clearBoth 0 0) =
      WatchFn.clearBoth 10 1 ∧
    (runWatch {} (WatchFn.clearBoth 10 1)
        ({ x := 20, y := 5, width := 80 }) (some { clear := ("both") })).1 = true ∧
    (runWatch {} (WatchFn.clearBoth 10 1)
        ({ x := 20, y := 5, width := 80 }) (some { clear := ("both") })).2.y = 10 ∧
    ¬ ((0 : ℚ) + 10 + 2 + 0 ≤
      (runWatch {} (WatchFn.clearBoth 10 1)
        ({ x := 20, y := 5, width := 80 }) (some { clear := ("both") })).2.y) := by
  refine ⟨?_, ?_, ?_, ?_⟩
  · norm_num +decide [applyImageFloat]
  · norm_num +decide [runWatch]
  · norm_num +decide [runWatch]
  · norm_num +decide [runWatch]

/-- C8 (amended): placing a left-floated image shrinks `settings.width` by
the float's full margin-box width `d = imgWidth + spaceLeft + spaceRight` and
shifts `x` right by `d`, registering a restore and a clear predicate.  Once
`y` reaches the restore threshold (the float's margin-box bottom,
`y₀ + imgHeight + spaceTop + spaceBottom`), the restore predicate fires and
returns `x` and `settings.width` exactly to their pre-float values.  A
`clear: both` element encountered before natural restoration forces `y` to
exactly `y₀ + imgHeight` — the pre-float `y` plus the image height, which
falls short of the margin-box bottom edge whenever vertical margins or
padding are present. -/
theorem renderImage_left_float (doc : Doc) (s : RState)
    (imgWidth imgHeight asl asr ast asb : ℚ) :
    (applyImageFloat s ("left") imgWidth imgHeight asl asr ast asb).width =
      s.width - (imgWidth + asl + asr) ∧
    (applyImageFloat s ("left") imgWidth imgHeight asl asr ast asb).x =
      s.x + (imgWidth + asl + asr) ∧
    (applyImageFloat s ("left") imgWidth imgHeight asl asr ast asb).watchFunctions =
      s.watchFunctions ++
        [WatchFn.restore (-(imgWidth + asl + asr))
          (s.y + imgHeight + ast + asb) (imgWidth + asl + asr),
          WatchFn.clearBoth (s.y + imgHeight) s.pages] ∧
    (∀ s2 : RState,
      s2.x = s.x + (imgWidth + asl + asr) →
      s2.width = s.width - (imgWidth + asl + asr) →
      s.y + imgHeight + ast + asb ≤ s2.y →
      (runWatch doc (WatchFn.restore (-(imgWidth + asl + asr))
          (s.y + imgHeight + ast + asb) (imgWidth + asl + asr)) s2 none).1 = true ∧
      (runWatch doc (WatchFn.restore (-(imgWidth + asl + asr))
          (s.y + imgHeight + ast + asb) (imgWidth + asl + asr)) s2 none).2.x = s.x ∧
      (runWatch doc (WatchFn.restore (-(imgWidth + asl + asr))
          (s.y + imgHeight + ast + asb) (imgWidth + asl + asr)) s2 none).2.width =
        s.width) ∧
    (∀ (s2 : RState) (el : NodeArg),
      s2.y < s.y + imgHeight → s2.pages = s.pages →
      el.isElement = true → el.clear = ("both") →
      (runWatch doc (WatchFn.clearBoth (s.y + imgHeight) s.pages)
        s2 (some el)).1 = true ∧
      (runWatch doc (WatchFn.clearBoth (s.y + imgHeight) s.pages)
        s2 (some el)).2.y = s.y + imgHeight) := by
  refine ⟨?_, ?_, ?_, ?_, ?_⟩
  · simp [applyImageFloat]
  · simp [applyImageFloat]
  · simp [applyImageFloat]
  · intro s2 hx hw hy
    simp only [runWatch]
    rw [if_pos hy]
    refine ⟨rfl, ?_, ?_⟩
    · simp only [hx]
      ring
    · simp only [hw]
      ring
  · intro s2 el hy hp hel hclear
    simp only [runWatch]
    rw [if_pos ⟨hy, hp.symm⟩]
    rw [if_pos ⟨hel, hclear⟩]
    exact ⟨rfl, rfl⟩

/-- Witness for C8 (amended) at concrete values: image 20 wide and 10 high,
margin-box spaces (1, 2, 3, 4), placed at x = 5, y = 7 on width 100. -/
theorem renderImage_left_float_witness :
    (runWatch {} (WatchFn.restore (-(20 + 1 + 2)) (7 + 10 + 3 + 4) (20 + 1 + 2))
      ({ x := 5 + (20 + 1 + 2), y := 30, width := 100 - (20 + 1 + 2) })
      none).2.x = 5 ∧
    (runWatch {} (WatchFn.restore (-(20 + 1 + 2)) (7 + 10 + 3 + 4) (20 + 1 + 2))
      ({ x := 5 + (20 + 1 + 2), y := 30, width := 100 - (20 + 1 + 2) })
      none).2.width = 100 ∧
    (runWatch {} (WatchFn.clearBoth (7 + 10) 1)
      ({ x := 5, y := 9, width := 100 }) (some { clear := ("both") })).2.y =
      7 + 10 := by
  have h := renderImage_left_float {} ({ x := 5, y := 7, width := 100 }) 20 10 1 2 3 4
  obtain ⟨-, -, -, hres, hclr⟩ := h
  have h1 := hres ({ x := 5 + (20 + 1 + 2), y := 30, width := 100 - (20 + 1 + 2) })
    rfl rfl (by norm_num)
  have h2 := hclr ({ x := 5, y := 9, width := 100 }) ({ clear := ("both") })
    (by norm_num) rfl rfl rfl
  exact ⟨h1.2.1, h1.2.2, h2.2⟩

/-! ### C4: table column widths (`TableRenderer.ts:127-215`) -/

/-- The proportional column resolution (`TableRenderer.ts:167-170`): each
header's share of the total header width, scaled to the available width;
equal shares when the total is not positive. -/
def resolveColWidths (headerWidths : List ℚ) (availableWidth : ℚ) : List ℚ :=
  let totalHeaderWidth := headerWidths.sum
  headerWidths.map (fun h =>
    if 0 < totalHeaderWidth then h / totalHeaderWidth * availableWidth
    else availableWidth / headerWidths.length)

/-- The overflow adjustment (`TableRenderer.ts:193-206`): when the table
would cross the right margin, scale every column by one common factor; a
non-positive adjusted width skips the table (`none`). -/
def adjustColWidths (marginLeft maxRightX : ℚ) (colWidths : List ℚ) :
    Option (List ℚ) :=
  let totalTableWidth := colWidths.sum
  if maxRightX < marginLeft + totalTableWidth then
    let adjustedWidth := maxRightX - marginLeft
    if 0 < adjustedWidth then
      some (colWidths.map (fun c => c * (adjustedWidth / totalTableWidth)))
    else none
  else some colWidths

/-- The column-width computation of `renderTable` (`TableRenderer.ts:142-215`):
margin resolution, available width, proportional resolution, overflow
adjustment, and the final degenerate-width guard (`finalTableWidth <= 0`
skips the table). -/
def renderTableColWidths (pageWidth : ℚ) (marginLeft marginRight : Option ℚ)
    (initialX : ℚ) (headerWidths : List ℚ) : Option (List ℚ) :=
  let ml := marginLeft.getD initialX
  let mr := marginRight.getD ml
  let maxRightX := pageWidth - mr
  let availableWidth := max 0 (maxRightX - ml)
  let colWidths := resolveColWidths headerWidths availableWidth
  match adjustColWidths ml maxRightX colWidths with
  | none => none
  | some ws => if ws.sum ≤ 0 then none else some ws

theorem sum_map_mul_const (l : List ℚ) (c : ℚ) :
    (l.map (fun x => x * c)).sum = l.sum * c := by
  induction l with
  | nil => simp
  | cons x xs ih => simp [ih, add_mul]

theorem sum_map_constQ (l : List ℚ) (c : ℚ) :
    (l.map (fun _ => c)).sum = l.length * c := by
  induction l with
  | nil => simp
  | cons x xs ih =>
      simp only [List.map_cons, List.sum_cons, ih, List.length_cons]
      push_cast
      ring

/-- The resolved columns always total exactly the available width, also in
the all-missing equal-share fallback. -/
theorem resolveColWidths_sum (headerWidths : List ℚ) (availableWidth : ℚ)
    (hne : headerWidths ≠ []) (hpos : 0 < headerWidths.sum ∨
      headerWidths.sum = 0) :
    (resolveColWidths headerWidths availableWidth).sum = availableWidth := by
  simp only [resolveColWidths]
  rcases hpos with hpos | hzero
  · have hmap : headerWidths.map (fun h =>
        if 0 < headerWidths.sum then h / headerWidths.sum * availableWidth
        else availableWidth / headerWidths.length) =
        headerWidths.map (fun h => h * (availableWidth / headerWidths.sum)) := by
      refine List.map_congr_left ?_
      intro h _
      rw [if_pos hpos]
      field_simp
    rw [hmap, sum_map_mul_const]
    field_simp
  · have hnpos : ¬ 0 < headerWidths.sum := by rw [hzero]; exact lt_irrefl 0
    have hmap : headerWidths.map (fun h =>
        if 0 < headerWidths.sum then h / headerWidths.sum * availableWidth
        else availableWidth / headerWidths.length) =
        headerWidths.map (fun _ => availableWidth / headerWidths.length) := by
      refine List.map_congr_left ?_
      intro h _
      rw [if_neg hnpos]
    rw [hmap, sum_map_constQ]
    have hlen : ((headerWidths.length : ℚ)) ≠ 0 := by
      have h0 : headerWidths.length ≠ 0 := by
        intro h0
        exact hne (List.length_eq_zero.mp h0)
      exact_mod_cast h0
    field_simp

/-- C4: Whenever `renderTable` resolves absolute column widths (it skips
degenerate tables), their sum is at most the available frame width
`pageWidth − left margin − right margin`; and whenever a column list would
cross the right margin (with a positive adjusted width), the adjustment
scales every column by one common factor. -/
theorem renderTable_col_widths (pageWidth : ℚ)
    (marginLeft marginRight : Option ℚ) (initialX : ℚ)
    (headerWidths : List ℚ) :
    (∀ ws, renderTableColWidths pageWidth marginLeft marginRight initialX
        headerWidths = some ws →
      ws.sum ≤ pageWidth - (marginLeft.getD initialX) -
        (marginRight.getD (marginLeft.getD initialX))) ∧
    (∀ (cols ws : List ℚ),
      pageWidth - (marginRight.getD (marginLeft.getD initialX)) <
        (marginLeft.getD initialX) + cols.sum →
      adjustColWidths (marginLeft.getD initialX)
        (pageWidth - (marginRight.getD (marginLeft.getD initialX))) cols =
        some ws →
      ∃ c, ws = cols.map (fun x => x * c)) := by
  constructor
  · intro ws hws
    simp only [renderTableColWidths] at hws
    set ml := marginLeft.getD initialX with hml
    set mr := marginRight.getD ml with hmr
    set cols := resolveColWidths headerWidths
      (max 0 (pageWidth - mr - ml)) with hcols
    rcases hadj : adjustColWidths ml (pageWidth - mr) cols with _ | ws1
    · simp only [hadj] at hws
      exact Option.noConfusion hws
    · simp only [hadj] at hws
      by_cases hz : ws1.sum ≤ 0
      · rw [if_pos hz] at hws
        cases hws
      · rw [if_neg hz] at hws
        obtain rfl := Option.some_inj.mp hws
        simp only [adjustColWidths] at hadj
        by_cases hover : pageWidth - mr < ml + cols.sum
        · rw [if_pos hover] at hadj
          by_cases hposadj : 0 < pageWidth - mr - ml
          · rw [if_pos hposadj] at hadj
            obtain rfl := (Option.some_inj.mp hadj).symm
            rw [sum_map_mul_const]
            by_cases htot : cols.sum = 0
            · rw [htot, zero_mul]
              linarith
            · have hcancel : cols.sum * ((pageWidth - mr - ml) / cols.sum) =
                  pageWidth - mr - ml := by
                field_simp
              rw [hcancel]
              linarith
          · rw [if_neg hposadj] at hadj
            cases hadj
        · rw [if_neg hover] at hadj
          obtain rfl := (Option.some_inj.mp hadj).symm
          linarith
  · intro cols ws hover hadj
    simp only [adjustColWidths] at hadj
    rw [if_pos hover] at hadj
    split at hadj
    · exact ⟨_, (Option.some_inj.mp hadj).symm⟩
    · cases hadj

/-- Witness for C4: page width 100 with 10/10 margins and header widths
30 and 10 resolve to columns [60, 20], which total the 80-unit frame. -/
theorem renderTable_col_widths_witness :
    (([60, 20] : List ℚ)).sum ≤ 100 - 10 - 10 := by
  have heval : renderTableColWidths 100 (some 10) (some 10) 4 [30, 10] =
      some [60, 20] := by
    norm_num [renderTableColWidths, resolveColWidths, adjustColWidths]
  have h := (renderTable_col_widths 100 (some 10) (some 10) 4 [30, 10]).1
    [60, 20] heval
  simpa using h

/-! ### C6: nested ordered-list numbering
(`ListRenderer` stack version, `ImageRenderer.ts:318-352` concatenation;
`fromHTML.ts:194-207` OL handling and `fromHTML.ts:363-384` LI numbering) -/

/-- The module-level list counter and its nesting stack
(`listCount`, `listCountStack`). -/
structure ListCounters where
  listCount : ℕ := 1
  listCountStack : List ℕ := []
  deriving Repr, DecidableEq, Inhabited

/-- `resetListCounter`: push the current counter, restart at 1. -/
def resetListCounter (c : ListCounters) : ListCounters :=
  { listCount := 1, listCountStack := c.listCount :: c.listCountStack }

/-- `restoreListCounter`: pop the parent counter back (no-op when empty). -/
def restoreListCounter (c : ListCounters) : ListCounters :=
  match c.listCountStack with
  | [] => c
  | top :: rest => { listCount := top, listCountStack := rest }

/-- `getNextListNumber`: read-then-increment (`listCount++`). -/
def getNextListNumber (c : ListCounters) : ℕ × ListCounters :=
  (c.listCount, { c with listCount := c.listCount + 1 })

/-! The parts of the DOM that the OL/LI handling of `drillForContent`
reads: a list item holds text children and nested ordered sub-lists,
in document order. -/

mutual
inductive LiChild where
  | textChild (s : String) : LiChild
  | olChild (items : List LiItem) : LiChild
inductive LiItem where
  | mk (children : List LiChild) : LiItem
end

/-- `value.trim()` truthiness on a JS string, via the modelled whitespace
class. -/
def jsStrBlank (s : String) : Bool := (trimJs s.data).isEmpty

mutual
/-- OL handling (`fromHTML.ts:194-207`): reset the counter (pushing the
parent's), process the items, restore the parent counter. -/
def processOl (items : List LiItem) (c : ListCounters) :
    List String × ListCounters :=
  let c1 := resetListCounter c
  let r := processItems items c1
  (r.1, restoreListCounter r.2)

/-- The item loop inside an OL. -/
def processItems (items : List LiItem) (c : ListCounters) :
    List String × ListCounters :=
  match items with
  | [] => ([], c)
  | item :: rest =>
      let r1 := processLi item c
      let r2 := processItems rest r1.2
      (r1.1 ++ r2.1, r2.2)

/-- One LI inside an OL: its children in document order, numbering only the
first non-blank text node (`fromHTML.ts:363-384`). -/
def processLi (item : LiItem) (c : ListCounters) :
    List String × ListCounters :=
  match item with
  | .mk children => processLiChildren children true c

/-- The child loop of one LI.  The Boolean is the `isFirstTextNode` check:
no non-blank text sibling seen yet. -/
def processLiChildren (children : List LiChild) (isFirst : Bool)
    (c : ListCounters) : List String × ListCounters :=
  match children with
  | [] => ([], c)
  | .textChild s :: rest =>
      if jsStrBlank s then
        let r := processLiChildren rest isFirst c
        (s :: r.1, r.2)
      else if isFirst then
        let n := getNextListNumber c
        let r := processLiChildren rest false n.2
        ((toString n.1 ++ (". ") ++ s) :: r.1, r.2)
      else
        let r := processLiChildren rest false c
        (s :: r.1, r.2)
  | .olChild items :: rest =>
      let r1 := processOl items c
      let r2 := processLiChildren rest isFirst r1.2
      (r1.1 ++ r2.1, r2.2)
end

/-- The ordered-list input `[A, B, [C, D], E]`: three items, a nested
ordered sub-list after the second item's text, then a final item. -/
def exampleOl : List LiItem :=
  [ .mk [.textChild ("A")],
    .mk [.textChild ("B"),
      .olChild [ .mk [.textChild ("C")], .mk [.textChild ("D")] ]],
    .mk [.textChild ("E")] ]

/-- C6: the input list `[A, B, [C, D], E]` renders exactly
"1. A", "2. B", "1. C", "2. D", "3. E": entering the nested list pushes the
parent counter and restarts at 1, and exiting pops it back so numbering
resumes at 3; the counter state afterwards equals the initial one. -/
theorem nested_ol_numbering :
    (processOl exampleOl {}).1 =
      [("1. A"), ("2. B"), ("1. C"), ("2. D"), ("3. E")] ∧
    (processOl exampleOl {}).2 = {} := by
  constructor <;>
    norm_num +decide [processOl, processItems, processLi, processLiChildren,
      exampleOl, resetListCounter, restoreListCounter, getNextListNumber,
      jsStrBlank]

/-! ### C9: font-family resolution -/

/-- The generic/alias table `FontNameDB` (`src/src/utils/fonts.ts:4-12`),
keys lowercase. -/
def FontNameDB : List (String × String) :=
  [(("helvetica"), ("helvetica")),
   (("sans-serif"), ("helvetica")),
   (("times new roman"), ("times")),
   (("serif"), ("times")),
   (("times"), ("times")),
   (("monospace"), ("courier")),
   (("courier"), ("courier"))]

/-- The loop over the fallback parts testing the custom-font registry. -/
def registryPass (customFonts : List (String × String)) :
    List String → Option String
  | [] => none
  | p :: ps =>
      match customFonts.lookup p.toLower with
      | some n => some n
      | none => registryPass customFonts ps

/-- The loop over the fallback parts testing the generic/alias table. -/
def aliasPass : List String → Option String
  | [] => none
  | p :: ps =>
      match FontNameDB.lookup p.toLower with
      | some n => some n
      | none => aliasPass ps

/-- Modelled from the spec: the custom-font-aware `resolveFont`.  The
`src/src/utils/fonts.ts` copy under `src/` lacks the custom-font registry
that `src/src/index.ts` registers via `registerCustomFonts` (that version of
`utils/fonts.ts` is not under `src/`); following the spec (§4.6), resolution
tries, in order: an exact case-insensitive match in the registry of
explicitly embedded custom fonts; then the generic/alias table; then the
first listed family name verbatim; then the default serif fallback. -/
def resolveFont (customFonts : List (String × String))
    (cssFontFamily : String) : String :=
  if cssFontFamily = ("") then ("times")
  else
    let parts := (cssFontFamily.splitOn (",")).map (fun p => p.trim)
    match registryPass customFonts parts with
    | some n => n
    | none =>
        match aliasPass parts with
        | some n => n
        | none =>
            let first := parts.headD ("")
            if first = ("") then ("times") else first

theorem registryPass_eq_findSome (customFonts : List (String × String)) :
    ∀ parts : List String,
      registryPass customFonts parts =
        parts.findSome? (fun p => customFonts.lookup p.toLower) := by
  intro parts
  induction parts with
  | nil => rfl
  | cons p ps ih =>
      simp only [registryPass, List.findSome?_cons]
      cases customFonts.lookup p.toLower <;> simp [ih]

theorem aliasPass_eq_findSome :
    ∀ parts : List String,
      aliasPass parts = parts.findSome? (fun p => FontNameDB.lookup p.toLower) := by
  intro parts
  induction parts with
  | nil => rfl
  | cons p ps ih =>
      simp only [aliasPass, List.findSome?_cons]
      cases FontNameDB.lookup p.toLower <;> simp [ih]

/-- C9: for every comma-separated font-family fallback string, resolution
returns: the first exact case-insensitive custom-registry hit over the listed
families, in order; failing that, the first generic/alias-table hit; failing
that, the first listed family name verbatim (trimmed); and only if all of
these fail (or the input is empty), the default serif fallback "times". -/
theorem resolveFont_order (customFonts : List (String × String))
    (cssFontFamily : String) :
    resolveFont customFonts cssFontFamily =
      if cssFontFamily = ("") then ("times")
      else
        (((cssFontFamily.splitOn (",")).map (fun p => p.trim)).findSome?
            (fun p => customFonts.lookup p.toLower)).getD
          (((((cssFontFamily.splitOn (",")).map (fun p => p.trim)).findSome?
              (fun p => FontNameDB.lookup p.toLower))).getD
            (if (((cssFontFamily.splitOn (",")).map
                (fun p => p.trim)).headD ("")) = ("") then ("times")
             else (((cssFontFamily.splitOn (",")).map
                (fun p => p.trim)).headD ("")))) := by
  by_cases hemp : cssFontFamily = ("")
  · rw [resolveFont, if_pos hemp, if_pos hemp]
  · rw [resolveFont, if_neg hemp, if_neg hemp]
    rw [← registryPass_eq_findSome, ← aliasPass_eq_findSome]
    rcases hr : registryPass customFonts
        ((cssFontFamily.splitOn (",")).map (fun p => p.trim)) with _ | n <;>
      rcases ha : aliasPass
        ((cssFontFamily.splitOn (",")).map (fun p => p.trim)) with _ | m <;>
      simp [hr, ha]

/-! ### C3: exception propagation in the content walker
(`fromHTML.ts:105-415` and the only try/catch at `fromHTML.ts:575-581`) -/

/-- A node as the dispatch loop of `drillForContent` sees it: renderable
content, an element with children, or a node whose rendering raises an
exception (standing for any render step that throws). -/
inductive DNode where
  | textNode (s : String) : DNode
  | failNode : DNode
  | elemNode (children : List DNode) : DNode
  deriving Repr

/-- The per-node dispatch loop of `drillForContent`: it has NO try/catch, so
an exception raised for one node abandons all of its following siblings at
every ancestor level.  The result is the content rendered before the first
failure plus a completion flag (`false` = an exception escaped). -/
def drillForContent : List DNode → List String × Bool
  | [] => ([], true)
  | .textNode s :: rest =>
      let r := drillForContent rest
      (s :: r.1, r.2)
  | .failNode :: _ => ([], false)
  | .elemNode children :: rest =>
      let rc := drillForContent children
      if rc.2 then
        let r := drillForContent rest
        (rc.1 ++ r.1, r.2)
      else (rc.1, false)

/-- `process` (`fromHTML.ts:509-596`): the single try/catch around the whole
`drillForContent(domElement, ...)` call swallows the exception; the
conversion still completes with whatever was rendered before it. -/
def processDoc (tree : List DNode) : List String :=
  (drillForContent tree).1

/-- Does a forest contain no failing node? -/
def allOkList : List DNode → Bool
  | [] => true
  | .textNode _ :: rest => allOkList rest
  | .failNode :: _ => false
  | .elemNode cs :: rest => allOkList cs && allOkList rest

/-- Counterexample to C3 as stated: with siblings `[text A, failing node,
text B]`, the exception raised for the middle node is NOT caught at the
per-node dispatch boundary: rendering does not continue with the failing
node's siblings, and `B` is never rendered. -/
theorem drillForContent_abort_counterexample :
    (drillForContent [DNode.textNode ("A"), DNode.failNode,
        DNode.textNode ("B")]).1 = [("A")] ∧
    (drillForContent [DNode.textNode ("A"), DNode.failNode,
        DNode.textNode ("B")]).2 = false ∧
    ¬ (("B") ∈ (drillForContent [DNode.textNode ("A"), DNode.failNode,
        DNode.textNode ("B")]).1) := by
  refine ⟨?_, ?_, ?_⟩ <;> simp [drillForContent]

theorem drillForContent_ok (l : List DNode) :
    allOkList l = true → (drillForContent l).2 = true := by
  induction l using drillForContent.induct with
  | case1 => intro _; simp [drillForContent]
  | case2 s rest ih =>
      intro h
      simp only [allOkList] at h
      simp only [drillForContent]
      exact ih h
  | case3 tail => intro h; simp [allOkList] at h
  | case4 children rest rc hcond ih1 ih2 =>
      intro h
      simp only [allOkList, Bool.and_eq_true] at h
      have hc2 : (drillForContent children).2 = true := hcond
      simp only [drillForContent, hc2, if_true]
      exact ih2 h.2
  | case5 children rest rc hcond ih1 =>
      intro h
      simp only [allOkList, Bool.and_eq_true] at h
      have hc2 : ¬ (drillForContent children).2 = true := hcond
      exact absurd (ih1 h.1) hc2

/-- C3 (amended): an exception raised while rendering one node propagates —
it abandons that node's remaining siblings and every ancestor's remaining
content — and is caught only once, around the whole-document
`drillForContent` call in `process`; the conversion still completes,
returning exactly the content rendered before the failure. -/
theorem processDoc_catches_at_document_level (pre post : List DNode)
    (hpre : allOkList pre = true) :
    drillForContent (pre ++ DNode.failNode :: post) =
      ((drillForContent pre).1, false) ∧
    processDoc (pre ++ DNode.failNode :: post) = (drillForContent pre).1 := by
  have hmain : drillForContent (pre ++ DNode.failNode :: post) =
      ((drillForContent pre).1, false) := by
    induction pre with
    | nil => simp [drillForContent]
    | cons n rest ih =>
        cases n with
        | textNode s =>
            simp only [allOkList] at hpre
            simp only [List.cons_append, drillForContent, ih hpre]
        | failNode => simp [allOkList] at hpre
        | elemNode cs =>
            simp only [allOkList, Bool.and_eq_true] at hpre
            have hok := drillForContent_ok cs hpre.1
            simp only [List.cons_append, drillForContent, hok, if_true,
              ih hpre.2]
  exact ⟨hmain, by simp only [processDoc, hmain]⟩

/-- Witness for C3 (amended): the document `[text A, fail, text B]`
renders `A`, aborts before `B`, and `process` still returns `[A]`. -/
theorem processDoc_catches_witness :
    drillForContent [DNode.textNode ("A"), DNode.failNode,
        DNode.textNode ("B")] =
      ((drillForContent [DNode.textNode ("A")]).1, false) ∧
    processDoc [DNode.textNode ("A"), DNode.failNode, DNode.textNode ("B")] =
      (drillForContent [DNode.textNode ("A")]).1 :=
  processDoc_catches_at_document_level [DNode.textNode ("A")]
    [DNode.textNode ("B")] (by simp [allOkList])


/-! ### C5: WOFF to TTF transcoding (`src/unnamed/part_002:60-159`) -/

/-- Errors `woffToTtf` can raise: the explicit `throw new Error(...)` on a
bad signature, and the JS `RangeError` a `DataView` read or `Uint8Array`
view past the end of the buffer raises. -/
inductive WErr where
  | formatError : WErr
  | rangeError : WErr
  deriving Repr, DecidableEq

/-- One byte of a buffer (out-of-range reads are guarded before use). -/
def byteAt (bytes : List ℕ) (i : ℕ) : ℕ := bytes.getD i 0

/-- Big-endian 32-bit read, as `DataView.getUint32` decodes. -/
def readU32 (bytes : List ℕ) (i : ℕ) : ℕ :=
  byteAt bytes i * 16777216 + byteAt bytes (i + 1) * 65536 +
    byteAt bytes (i + 2) * 256 + byteAt bytes (i + 3)

def readU16 (bytes : List ℕ) (i : ℕ) : ℕ :=
  byteAt bytes i * 256 + byteAt bytes (i + 1)

/-- `DataView.getUint32` with its bounds check. -/
def getUint32 (bytes : List ℕ) (i : ℕ) : Except WErr ℕ :=
  if i + 4 ≤ bytes.length then Except.ok (readU32 bytes i)
  else Except.error WErr.rangeError

def getUint16 (bytes : List ℕ) (i : ℕ) : Except WErr ℕ :=
  if i + 2 ≤ bytes.length then Except.ok (readU16 bytes i)
  else Except.error WErr.rangeError

/-- One entry of the WOFF table directory (`part_002:74-80`). -/
structure WoffTable where
  tag : ℕ
  woffOffset : ℕ
  compLength : ℕ
  origLength : ℕ
  origChecksum : ℕ
  deriving Repr, DecidableEq

/-- The WOFF table-directory loop (`part_002:81-91`): `numTables` 20-byte
entries starting at byte 44. -/
def readDirectory (bytes : List ℕ) : ℕ → ℕ → Except WErr (List WoffTable)
  | 0, _ => Except.ok []
  | n + 1, off => do
      let tg ← getUint32 bytes off
      let wo ← getUint32 bytes (off + 4)
      let cl ← getUint32 bytes (off + 8)
      let ol ← getUint32 bytes (off + 12)
      let ck ← getUint32 bytes (off + 16)
      let rest ← readDirectory bytes n (off + 20)
      pure ({ tag := tg
              woffOffset := wo
              compLength := cl
              origLength := ol
              origChecksum := ck } :: rest)

/-- `new Uint8Array(woffBuffer, offset, length)` with its range check. -/
def sliceBytes (bytes : List ℕ) (off len : ℕ) : Except WErr (List ℕ) :=
  if off + len ≤ bytes.length then Except.ok ((bytes.drop off).take len)
  else Except.error WErr.rangeError

/-- The decompression loop (`part_002:106-124`): a table is inflated exactly
when its compressed length is smaller than its original length.  `inflate`
abstracts the browser `DecompressionStream` used by the source. -/
def decompressTables (inflate : List ℕ → List ℕ) (bytes : List ℕ) :
    List WoffTable → Except WErr (List (List ℕ))
  | [] => Except.ok []
  | t :: ts => do
      let raw ← sliceBytes bytes t.woffOffset t.compLength
      let rest ← decompressTables inflate bytes ts
      pure ((if t.compLength < t.origLength then inflate raw else raw) :: rest)

/-- The searchRange/entrySelector loop (`part_002:96-103`), fueled:
searchRange doubles each step, so `numTables + 1` steps always suffice. -/
def srLoop (numTables : ℕ) : ℕ → ℕ × ℕ → ℕ × ℕ
  | 0, p => p
  | fuel + 1, p =>
      if p.1 * 2 ≤ numTables then srLoop numTables fuel (p.1 * 2, p.2 + 1)
      else p

def searchParams (numTables : ℕ) : ℕ × ℕ := srLoop numTables (numTables + 1) (1, 0)

/-- Big-endian serialization, as `DataView.setUint32` writes (mod 2^32). -/
def u32be (v : ℕ) : List ℕ :=
  [v / 16777216 % 256, v / 65536 % 256, v / 256 % 256, v % 256]

def u16be (v : ℕ) : List ℕ := [v / 256 % 256, v % 256]

/-- `setUint16` of a possibly negative JS number (two's complement wrap;
rangeShift is negative when `numTables = 0`). -/
def u16beZ (v : ℤ) : List ℕ := u16be (v % 65536).toNat

/-- Zero padding to the next 4-byte boundary after `n` bytes. -/
def pad4 (n : ℕ) : ℕ := (4 - n % 4) % 4

def ttfHeaderSize (numTables : ℕ) : ℕ := 12 + numTables * 16

/-- The running data offsets (`part_002:138-156`): the first table starts
at the end of the directory, each next at the previous end padded to 4. -/
def tableOffsets (start : ℕ) : List (List ℕ) → List ℕ
  | [] => []
  | d :: ds => start :: tableOffsets (start + d.length + pad4 d.length) ds

/-- One 16-byte TTF directory entry (`part_002:143-148`): tag, checksum,
offset, original length. -/
def dirEntryBytes (t : WoffTable) (off : ℕ) : List ℕ :=
  u32be t.tag ++ u32be t.origChecksum ++ u32be off ++ u32be t.origLength

def dirBytes : List WoffTable → List ℕ → List ℕ
  | t :: ts, o :: os => dirEntryBytes t o ++ dirBytes ts os
  | _, _ => []

/-- Table data with its 4-byte padding (`part_002:150-155`; the fresh
`ArrayBuffer` is zero-filled, so the padding bytes are zeros). -/
def dataBytes : List (List ℕ) → List ℕ
  | [] => []
  | d :: ds => d ++ List.replicate (pad4 d.length) 0 ++ dataBytes ds

/-- The 12-byte sfnt header (`part_002:130-136`). -/
def sfntHeader (flavor numTables : ℕ) : List ℕ :=
  u32be flavor ++ u16be numTables ++ u16be ((searchParams numTables).1 * 16) ++
    u16be (searchParams numTables).2 ++
    u16beZ ((numTables : ℤ) * 16 - ((searchParams numTables).1 : ℤ) * 16)

/-- The output buffer: header, directory, then the padded table data at
consecutive offsets, exactly the bytes `part_002:127-157` writes. -/
def buildTtf (flavor : ℕ) (tables : List WoffTable) (datas : List (List ℕ)) :
    List ℕ :=
  sfntHeader flavor tables.length ++
    dirBytes tables (tableOffsets (ttfHeaderSize tables.length) datas) ++
    dataBytes datas

/-- `woffToTtf` (`part_002:60-159`): verify the WOFF1 signature 0x774F4646
(`wOFF`) and rebuild the font as a TTF. -/
def woffToTtf (inflate : List ℕ → List ℕ) (bytes : List ℕ) :
    Except WErr (List ℕ) := do
  let signature ← getUint32 bytes 0
  if signature ≠ 0x774f4646 then Except.error WErr.formatError
  else do
    let flavor ← getUint32 bytes 4
    let numTables ← getUint16 bytes 12
    let tables ← readDirectory bytes numTables 44
    let datas ← decompressTables inflate bytes tables
    pure (buildTtf flavor tables datas)

lemma exbind_ok {α β : Type} {x : Except WErr α} {f : α → Except WErr β}
    {b : β} (h : x >>= f = Except.ok b) :
    ∃ a, x = Except.ok a ∧ f a = Except.ok b := by
  cases x with
  | error e => exact absurd h (by simp [Bind.bind, Except.bind])
  | ok a => exact ⟨a, rfl, h⟩

lemma readDirectory_length (bytes : List ℕ) :
    ∀ n off ts, readDirectory bytes n off = Except.ok ts → ts.length = n := by
  intro n
  induction n with
  | zero =>
      intro off ts h
      simp only [readDirectory] at h
      cases h
      rfl
  | succ m ih =>
      intro off ts h
      simp only [readDirectory] at h
      obtain ⟨a1, -, h⟩ := exbind_ok h
      obtain ⟨a2, -, h⟩ := exbind_ok h
      obtain ⟨a3, -, h⟩ := exbind_ok h
      obtain ⟨a4, -, h⟩ := exbind_ok h
      obtain ⟨a5, -, h⟩ := exbind_ok h
      obtain ⟨rest, hrest, h⟩ := exbind_ok h
      cases h
      simp [ih _ _ hrest]

lemma decompressTables_spec (inflate : List ℕ → List ℕ) (bytes : List ℕ) :
    ∀ ts ds, decompressTables inflate bytes ts = Except.ok ds →
      ds.length = ts.length ∧
      ∀ (i : ℕ) (t : WoffTable), ts[i]? = some t →
        ds[i]? = some (if t.compLength < t.origLength
          then inflate ((bytes.drop t.woffOffset).take t.compLength)
          else (bytes.drop t.woffOffset).take t.compLength) := by
  intro ts
  induction ts with
  | nil =>
      intro ds h
      simp only [decompressTables] at h
      cases h
      exact ⟨rfl, by intro i t ht; simp at ht⟩
  | cons t0 rest ih =>
      intro ds h
      simp only [decompressTables] at h
      obtain ⟨raw, hraw, h⟩ := exbind_ok h
      obtain ⟨ds0, hds0, h⟩ := exbind_ok h
      cases h
      obtain ⟨hlen, hall⟩ := ih ds0 hds0
      have hraw2 : raw = (bytes.drop t0.woffOffset).take t0.compLength := by
        simp only [sliceBytes] at hraw
        split at hraw
        · cases hraw; rfl
        · cases hraw
      refine ⟨by simp [hlen], ?_⟩
      intro i t ht
      cases i with
      | zero =>
          simp only [List.getElem?_cons_zero, Option.some.injEq] at ht
          subst ht
          simp [hraw2]
      | succ j =>
          simp only [List.getElem?_cons_succ] at ht ⊢
          exact hall j t ht

lemma byteAt_append_right (a b : List ℕ) (j : ℕ) :
    byteAt (a ++ b) (a.length + j) = byteAt b j := by
  unfold byteAt
  rw [List.getD_append_right a b 0 _ (Nat.le_add_right _ _)]
  congr 1
  omega

lemma readU32_at_boundary (a : List ℕ) (v : ℕ) (b : List ℕ) (i : ℕ)
    (h : i = a.length) : readU32 (a ++ (u32be v ++ b)) i = v % 4294967296 := by
  subst h
  have h0 := byteAt_append_right a (u32be v ++ b) 0
  have h1 := byteAt_append_right a (u32be v ++ b) 1
  have h2 := byteAt_append_right a (u32be v ++ b) 2
  have h3 := byteAt_append_right a (u32be v ++ b) 3
  simp only [Nat.add_zero] at h0
  unfold readU32
  rw [h0, h1, h2, h3]
  have e0 : byteAt (u32be v ++ b) 0 = v / 16777216 % 256 := rfl
  have e1 : byteAt (u32be v ++ b) 1 = v / 65536 % 256 := rfl
  have e2 : byteAt (u32be v ++ b) 2 = v / 256 % 256 := rfl
  have e3 : byteAt (u32be v ++ b) 3 = v % 256 := rfl
  rw [e0, e1, e2, e3]
  omega

lemma dirEntryBytes_length (t : WoffTable) (off : ℕ) :
    (dirEntryBytes t off).length = 16 := by
  simp [dirEntryBytes, u32be]

lemma dirBytes_length : ∀ (ts : List WoffTable) (os : List ℕ),
    os.length = ts.length → (dirBytes ts os).length = 16 * ts.length := by
  intro ts
  induction ts with
  | nil => intro os h; cases os <;> simp [dirBytes]
  | cons t rest ih =>
      intro os h
      cases os with
      | nil => simp at h
      | cons o os0 =>
          simp only [List.length_cons, Nat.succ.injEq] at h
          simp only [dirBytes, List.length_append, dirEntryBytes_length,
            ih os0 h, List.length_cons]
          ring

lemma sfntHeader_length (flavor numTables : ℕ) :
    (sfntHeader flavor numTables).length = 12 := by
  simp [sfntHeader, u32be, u16be, u16beZ]

lemma tableOffsets_length : ∀ (ds : List (List ℕ)) (start : ℕ),
    (tableOffsets start ds).length = ds.length := by
  intro ds
  induction ds with
  | nil => intro start; rfl
  | cons d rest ih => intro start; simp [tableOffsets, ih]

lemma tableOffsets_mod4 : ∀ (ds : List (List ℕ)) (start : ℕ), start % 4 = 0 →
    ∀ (i : ℕ) (off : ℕ), (tableOffsets start ds)[i]? = some off →
    off % 4 = 0 := by
  intro ds
  induction ds with
  | nil => intro start hs i off h; simp [tableOffsets] at h
  | cons d rest ih =>
      intro start hs i off h
      cases i with
      | zero =>
          simp only [tableOffsets, List.getElem?_cons_zero,
            Option.some.injEq] at h
          omega
      | succ j =>
          simp only [tableOffsets, List.getElem?_cons_succ] at h
          refine ih _ ?_ j off h
          unfold pad4
          omega

lemma tableOffsets_le : ∀ (ds : List (List ℕ)) (start : ℕ) (i : ℕ) (off : ℕ),
    (tableOffsets start ds)[i]? = some off → start ≤ off := by
  intro ds
  induction ds with
  | nil => intro start i off h; simp [tableOffsets] at h
  | cons d rest ih =>
      intro start i off h
      cases i with
      | zero =>
          simp only [tableOffsets, List.getElem?_cons_zero,
            Option.some.injEq] at h
          omega
      | succ j =>
          simp only [tableOffsets, List.getElem?_cons_succ] at h
          have := ih _ j off h
          omega

lemma dirBytes_decompose : ∀ (ts : List WoffTable) (os : List ℕ)
    (i : ℕ) (t : WoffTable) (off : ℕ),
    ts[i]? = some t → os[i]? = some off →
    ∃ pre suf, dirBytes ts os = pre ++ (dirEntryBytes t off ++ suf) ∧
      pre.length = 16 * i := by
  intro ts
  induction ts with
  | nil => intro os i t off ht _; simp at ht
  | cons t0 rest ih =>
      intro os i t off ht ho
      cases os with
      | nil => simp at ho
      | cons o0 os0 =>
          cases i with
          | zero =>
              simp only [List.getElem?_cons_zero, Option.some.injEq] at ht ho
              subst ht; subst ho
              exact ⟨[], dirBytes rest os0, by simp [dirBytes], by simp⟩
          | succ j =>
              simp only [List.getElem?_cons_succ] at ht ho
              obtain ⟨pre, suf, heq, hlen⟩ := ih os0 j t off ht ho
              refine ⟨dirEntryBytes t0 o0 ++ pre, suf, ?_, ?_⟩
              · simp only [dirBytes, heq, List.append_assoc]
              · simp only [List.length_append, dirEntryBytes_length, hlen]
                ring

lemma dataBytes_extract : ∀ (ds : List (List ℕ)) (start : ℕ) (i : ℕ)
    (d : List ℕ) (off : ℕ),
    ds[i]? = some d → (tableOffsets start ds)[i]? = some off →
    ((dataBytes ds).drop (off - start)).take d.length = d := by
  intro ds
  induction ds with
  | nil => intro start i d off hd _; simp at hd
  | cons d0 rest ih =>
      intro start i d off hd ho
      cases i with
      | zero =>
          simp only [List.getElem?_cons_zero, Option.some.injEq] at hd
          simp only [tableOffsets, List.getElem?_cons_zero,
            Option.some.injEq] at ho
          subst hd; subst ho
          simp only [Nat.sub_self, List.drop_zero, dataBytes, ← List.append_assoc]
          rw [List.append_assoc, List.take_left]
      | succ j =>
          simp only [List.getElem?_cons_succ] at hd
          simp only [tableOffsets, List.getElem?_cons_succ] at ho
          have hle := tableOffsets_le rest _ j off ho
          have ihr := ih (start + d0.length + pad4 d0.length) j d off hd ho
          have hassoc : dataBytes (d0 :: rest) =
              (d0 ++ List.replicate (pad4 d0.length) 0) ++ dataBytes rest := by
            simp [dataBytes]
          have harith : off - start =
              (d0 ++ List.replicate (pad4 d0.length) 0).length +
                (off - (start + d0.length + pad4 d0.length)) := by
            simp only [List.length_append, List.length_replicate]
            omega
          rw [hassoc, harith, List.drop_append]
          exact ihr

lemma ok_bind {α β : Type} (a : α) (f : α → Except WErr β) :
    (Except.ok a >>= f) = f a := rfl

/-- C5: `woffToTtf` rejects every buffer whose first 4 bytes differ from
the WOFF signature 0x774F4646 with a format error and produces no output;
on success the returned TTF carries, in its i-th 16-byte directory entry,
the table's original length (entry bytes 12-15) and the table's data
offset (entry bytes 8-11); the offsets are running and 4-byte-aligned, the
bytes at each offset are the table's data, and each table was inflated
exactly when its compressed length is smaller than its original length. -/
theorem woffToTtf_spec (inflate : List ℕ → List ℕ) (bytes out : List ℕ) :
    (4 ≤ bytes.length → readU32 bytes 0 ≠ 0x774f4646 →
      woffToTtf inflate bytes = Except.error WErr.formatError) ∧
    (woffToTtf inflate bytes = Except.ok out →
      ∃ flavor numTables tables datas,
        getUint32 bytes 4 = Except.ok flavor ∧
        getUint16 bytes 12 = Except.ok numTables ∧
        readDirectory bytes numTables 44 = Except.ok tables ∧
        decompressTables inflate bytes tables = Except.ok datas ∧
        tables.length = numTables ∧ datas.length = tables.length ∧
        out = buildTtf flavor tables datas ∧
        ∀ (i : ℕ) (t : WoffTable), tables[i]? = some t →
          ∃ d off, datas[i]? = some d ∧
            (tableOffsets (ttfHeaderSize tables.length) datas)[i]? = some off ∧
            d = (if t.compLength < t.origLength
                then inflate ((bytes.drop t.woffOffset).take t.compLength)
                else (bytes.drop t.woffOffset).take t.compLength) ∧
            readU32 out (12 + 16 * i + 12) = t.origLength % 4294967296 ∧
            readU32 out (12 + 16 * i + 8) = off % 4294967296 ∧
            off % 4 = 0 ∧
            (out.drop off).take d.length = d) := by
  constructor
  · intro h4 hsig
    have hget : getUint32 bytes 0 = Except.ok (readU32 bytes 0) := by
      unfold getUint32
      rw [if_pos (by omega)]
    unfold woffToTtf
    rw [hget, ok_bind]
    rw [if_pos hsig]
  · intro h
    unfold woffToTtf at h
    obtain ⟨sig, hsg, h⟩ := exbind_ok h
    rw [ite_eq_iff] at h
    rcases h with ⟨hne, h⟩ | ⟨hne, h⟩
    · cases h
    obtain ⟨flavor, hfl, h⟩ := exbind_ok h
    obtain ⟨numTables, hnt, h⟩ := exbind_ok h
    obtain ⟨tables, hrd, h⟩ := exbind_ok h
    obtain ⟨datas, hdec, h⟩ := exbind_ok h
    have hout : out = buildTtf flavor tables datas := by
      cases h
      rfl
    have hlen_t : tables.length = numTables := readDirectory_length bytes numTables 44 tables hrd
    obtain ⟨hlen_d, hchar⟩ := decompressTables_spec inflate bytes tables datas hdec
    refine ⟨flavor, numTables, tables, datas, hfl, hnt, hrd, hdec, hlen_t, hlen_d, hout, ?_⟩
    intro i t ht
    have hi : i < tables.length := by
      by_contra hge
      push_neg at hge
      rw [List.getElem?_eq_none hge] at ht
      cases ht
    have hd := hchar i t ht
    have hio : i < (tableOffsets (ttfHeaderSize tables.length) datas).length := by
      rw [tableOffsets_length]
      omega
    obtain ⟨off, hoff⟩ : ∃ off,
        (tableOffsets (ttfHeaderSize tables.length) datas)[i]? = some off :=
      ⟨_, List.getElem?_eq_getElem hio⟩
    obtain ⟨pre, suf, heq, hplen⟩ := dirBytes_decompose tables
      (tableOffsets (ttfHeaderSize tables.length) datas) i t off ht hoff
    have hu32len : ∀ v : ℕ, (u32be v).length = 4 := fun v => rfl
    have hout12 : out =
        (sfntHeader flavor tables.length ++ pre ++ u32be t.tag ++
          u32be t.origChecksum ++ u32be off) ++
        (u32be t.origLength ++ (suf ++ dataBytes datas)) := by
      rw [hout]
      simp [buildTtf, heq, dirEntryBytes, List.append_assoc]
    have hP12 : 12 + 16 * i + 12 =
        (sfntHeader flavor tables.length ++ pre ++ u32be t.tag ++
          u32be t.origChecksum ++ u32be off).length := by
      simp only [List.length_append, sfntHeader_length, hplen, hu32len]
      try omega
    have hr12 : readU32 out (12 + 16 * i + 12) = t.origLength % 4294967296 := by
      rw [hout12]
      exact readU32_at_boundary _ _ _ _ hP12
    have hout8 : out =
        (sfntHeader flavor tables.length ++ pre ++ u32be t.tag ++
          u32be t.origChecksum) ++
        (u32be off ++ (u32be t.origLength ++ suf ++ dataBytes datas)) := by
      rw [hout]
      simp [buildTtf, heq, dirEntryBytes, List.append_assoc]
    have hP8 : 12 + 16 * i + 8 =
        (sfntHeader flavor tables.length ++ pre ++ u32be t.tag ++
          u32be t.origChecksum).length := by
      simp only [List.length_append, sfntHeader_length, hplen, hu32len]
      try omega
    have hr8 : readU32 out (12 + 16 * i + 8) = off % 4294967296 := by
      rw [hout8]
      exact readU32_at_boundary _ _ _ _ hP8
    have hmod : off % 4 = 0 := by
      refine tableOffsets_mod4 datas (ttfHeaderSize tables.length) ?_ i off hoff
      unfold ttfHeaderSize
      omega
    have hhd : (sfntHeader flavor tables.length ++
        dirBytes tables (tableOffsets (ttfHeaderSize tables.length) datas)).length =
        ttfHeaderSize tables.length := by
      rw [List.length_append, sfntHeader_length,
        dirBytes_length tables _ (by rw [tableOffsets_length]; omega)]
      unfold ttfHeaderSize
      omega
    have hle2 := tableOffsets_le datas (ttfHeaderSize tables.length) i off hoff
    have hout3 : out = (sfntHeader flavor tables.length ++
        dirBytes tables (tableOffsets (ttfHeaderSize tables.length) datas)) ++
        dataBytes datas := by
      rw [hout]
      simp [buildTtf, List.append_assoc]
    have hdrop : out.drop off =
        (dataBytes datas).drop (off - ttfHeaderSize tables.length) := by
      have hsplit : off = (sfntHeader flavor tables.length ++
          dirBytes tables (tableOffsets (ttfHeaderSize tables.length) datas)).length +
          (off - ttfHeaderSize tables.length) := by
        rw [hhd]
        omega
      conv_lhs => rw [hout3, hsplit]
      rw [List.drop_append]
    refine ⟨_, off, hd, hoff, rfl, hr12, hr8, hmod, ?_⟩
    rw [hdrop]
    exact dataBytes_extract datas (ttfHeaderSize tables.length) i _ off hd hoff


/-- Witness for C5 at concrete buffers: a 5-byte buffer with a wrong
signature is rejected (by the theorem), and a minimal well-formed WOFF
with one uncompressed 4-byte table `test` transcodes to the expected
32-byte TTF: header, one directory entry recording length 4 at offset 28,
then the data. -/
theorem woffToTtf_spec_witness :
    woffToTtf id [0, 0, 0, 0, 5] = Except.error WErr.formatError ∧
    woffToTtf id
      ([0x77, 0x4F, 0x46, 0x46] ++ [0, 1, 0, 0] ++ [0, 0, 0, 68] ++ [0, 1] ++
        List.replicate 30 0 ++
        [0x74, 0x65, 0x73, 0x74] ++ [0, 0, 0, 64] ++ [0, 0, 0, 4] ++
        [0, 0, 0, 4] ++ [0, 0, 0, 7] ++ [1, 2, 3, 4]) =
      Except.ok [0, 1, 0, 0, 0, 1, 0, 16, 0, 0, 0, 0,
        116, 101, 115, 116, 0, 0, 0, 7, 0, 0, 0, 28, 0, 0, 0, 4,
        1, 2, 3, 4] :=
  ⟨(woffToTtf_spec id [0, 0, 0, 0, 5] []).1 (by decide) (by decide), rfl⟩

end ExportPDF
